import Mathlib

/-!
Verification of the core of the grok CLI (src/grok_cli/cli_prompt_grok.py).

Python strings are modelled as `List Char`.  Whitespace is modelled by the
six ASCII whitespace characters, the set recognized both by `str.strip()`
and by the regex class `\s` on ASCII text.  Python floats are modelled by
exact rationals.  The HTTP transport and the JSON decoder are outside the
repository; they are abstracted as an outcome datatype (for the
non-streaming call) and as a parse-function parameter (for the streaming
call).
-/

namespace GrokCli

/-- The six ASCII whitespace characters: space, tab, newline, carriage
return, vertical tab, form feed.  This is the character class used by
`str.strip()` and the regex class `\s` of the source, restricted to
ASCII. -/
def isWS (c : Char) : Bool :=
  c == ' ' || c == '\t' || c == '\n' || c == '\r' || c == Char.ofNat 11 || c == Char.ofNat 12

/-- A string consisting of whitespace only (a "blank" line). -/
def wsOnly (l : List Char) : Bool := l.all isWS

/-- Remove trailing whitespace (the right half of Python `str.strip()`). -/
def dropTrailWS (l : List Char) : List Char := (l.reverse.dropWhile isWS).reverse

/-- Python `str.strip()`: remove leading and trailing whitespace. -/
def stripChars (l : List Char) : List Char := dropTrailWS (l.dropWhile isWS)

/-- Python `str.split('\n')`: split at every newline, keeping empty
segments, so that `splitNL s` always has one more entry than `s` has
newlines. -/
def splitNL : List Char → List (List Char)
  | [] => [[]]
  | c :: v =>
    if c = '\n' then [] :: splitNL v
    else
      match splitNL v with
      | [] => [[c]]
      | h :: t => (c :: h) :: t

/-- Python `'\n'.join(...)`: interleave the entries with single newlines. -/
def joinNL : List (List Char) → List Char
  | [] => []
  | [l] => l
  | l :: ls => l ++ '\n' :: joinNL ls

/-- Python `re.sub(r'\s+', ' ', line)`: replace every maximal run of
whitespace characters by a single space. -/
def collapseWS : List Char → List Char
  | [] => []
  | [c] => if isWS c then [' '] else [c]
  | c :: d :: rest =>
    if isWS c then
      if isWS d then collapseWS (d :: rest) else ' ' :: collapseWS (d :: rest)
    else c :: collapseWS (d :: rest)

/-- `beginsWith p l` is Python `l.startswith(p)`. -/
def beginsWith : List Char → List Char → Bool
  | [], _ => true
  | _ :: _, [] => false
  | p :: ps, c :: cs => p == c && beginsWith ps cs

/-- Python `line.startswith(('1.', '2.', '3.', '4.', '•'))`: the markers
that protect a line from interior whitespace collapsing
(cli_prompt_grok.py line 49). -/
def isListMarker (l : List Char) : Bool :=
  beginsWith ['1', '.'] l || beginsWith ['2', '.'] l || beginsWith ['3', '.'] l ||
    beginsWith ['4', '.'] l || beginsWith ['•'] l

/-- The per-line step of `clean_response` (the list comprehension on
line 49 of cli_prompt_grok.py):
`re.sub(r'\s+', ' ', line).strip() if not line.strip().startswith((...)) else line.strip()`. -/
def cleanLine (line : List Char) : List Char :=
  if isListMarker (stripChars line) then stripChars line
  else stripChars (collapseWS line)

/-- Helper for the regex `\n\s*\n+` (line 47 of cli_prompt_grok.py).
Given the text that follows a newline, a (leftmost) match of the regex
exists there exactly when the maximal whitespace run that follows still
contains a newline; the greedy match then extends through the *last*
newline of that run.  `afterLastNL v` returns the text after that last
newline, or `none` when the run contains no newline (no match). -/
def afterLastNL : List Char → Option (List Char)
  | [] => none
  | c :: rest =>
    if isWS c then
      match afterLastNL rest with
      | some r => some r
      | none => if c = '\n' then some rest else none
    else none

/-- One-pass scanner implementing
`re.sub(r'\n\s*\n+', '\n\n', response)` (line 47 of cli_prompt_grok.py).
Python's `re.sub` scans left to right; at a `'\n'` whose following
whitespace run contains another newline the greedy match with
backtracking consumes everything through the last newline of the run and
is replaced by `"\n\n"`; the scan resumes after the match.  The Boolean
is the "inside a replaced match, still skipping" state. -/
def cbAux : Bool → List Char → List Char
  | _, [] => []
  | skip, c :: rest =>
    if skip && (afterLastNL (c :: rest)).isSome then cbAux true rest
    else if c = '\n' then
      if (afterLastNL rest).isSome then '\n' :: '\n' :: cbAux true rest
      else '\n' :: cbAux false rest
    else c :: cbAux false rest

/-- `re.sub(r'\n\s*\n+', '\n\n', response)`: collapse every blank-line
run to a single blank line. -/
def collapseBlank (l : List Char) : List Char := cbAux false l

/-- `clean_response` (lines 43-50 of cli_prompt_grok.py):
```
if not response: return response
response = re.sub(r'\n\s*\n+', '\n\n', response.strip())
lines = response.split('\n')
cleaned_lines = [re.sub(r'\s+', ' ', line).strip()
                 if not line.strip().startswith(('1.','2.','3.','4.','•'))
                 else line.strip() for line in lines]
return '\n'.join(cleaned_lines).strip()
``` -/
def clean_response (response : List Char) : List Char :=
  if response = [] then response
  else stripChars (joinNL ((splitNL (collapseBlank (stripChars response))).map cleanLine))

/-! ### Cost calculator -/

/-- Default price per 1K input tokens for grok-3-beta (line 33). -/
def GROK_3_BETA_INPUT_PRICE_PER_1K : ℚ := 5 / 1000

/-- Default price per 1K output tokens for grok-3-beta (line 34). -/
def GROK_3_BETA_OUTPUT_PRICE_PER_1K : ℚ := 15 / 1000

/-- Default price per 1K input tokens for grok-3-mini-beta (line 35). -/
def GROK_3_MINI_BETA_INPUT_PRICE_PER_1K : ℚ := 2 / 1000

/-- Default price per 1K output tokens for grok-3-mini-beta (line 36). -/
def GROK_3_MINI_BETA_OUTPUT_PRICE_PER_1K : ℚ := 6 / 1000

/-- The model identifier string "grok-3-beta". -/
def grok3Beta : List Char := ['g','r','o','k','-','3','-','b','e','t','a']

/-- The model identifier string "grok-3-mini-beta". -/
def grok3MiniBeta : List Char :=
  ['g','r','o','k','-','3','-','m','i','n','i','-','b','e','t','a']

/-- `calculate_cost` (lines 52-67 of cli_prompt_grok.py).  Python's true
division and float arithmetic are modelled by exact rational
arithmetic. -/
def calculate_cost (model : List Char) (prompt_tokens completion_tokens : ℕ) : ℚ :=
  if model = grok3Beta then
    ((prompt_tokens : ℚ) / 1000) * GROK_3_BETA_INPUT_PRICE_PER_1K +
      ((completion_tokens : ℚ) / 1000) * GROK_3_BETA_OUTPUT_PRICE_PER_1K
  else if model = grok3MiniBeta then
    ((prompt_tokens : ℚ) / 1000) * GROK_3_MINI_BETA_INPUT_PRICE_PER_1K +
      ((completion_tokens : ℚ) / 1000) * GROK_3_MINI_BETA_OUTPUT_PRICE_PER_1K
  else 0

/-! ### API client: non-streaming call -/

/-- The `usage` object of the response envelope (a JSON dict; a missing
key is `none`, so the empty dict is `⟨none, none, none⟩`). -/
structure Usage where
  prompt_tokens : Option ℕ
  completion_tokens : Option ℕ
  total_tokens : Option ℕ
deriving DecidableEq

/-- `choices[i].message` of the response envelope. -/
structure ChoiceMsg where
  content : Option (List Char)
  reasoning_content : Option (List Char)
deriving DecidableEq

/-- A parsed non-streaming response envelope: `usage` (absent key modelled
as `none`) and the `choices` array. -/
structure ResponseData where
  usage : Option Usage
  choices : List ChoiceMsg
deriving DecidableEq

/-- The possible outcomes of the HTTP interaction inside
`make_non_streaming_call`'s `try` block: a parsed 2xx response, or one of
the four exception classes handled on lines 173-187. -/
inductive CallOutcome
  | success (data : ResponseData)
  | keyboardInterrupt
  | httpStatusError (status : ℕ) (text : List Char)
  | requestError (msg : List Char)
  | otherError (msg : List Char)
deriving DecidableEq

/-- One `console.print` emitted by the exception handlers of
`make_non_streaming_call`; each constructor is one of the four print
sites (lines 174, 178, 182, 186). -/
inductive ConsoleMsg
  | interruptedNotice
  | httpErrorNotice (status : ℕ) (text : List Char)
  | networkErrorNotice (msg : List Char)
  | genericErrorNotice (msg : List Char)
deriving DecidableEq

/-- The Python message of the IndexError raised by `data["choices"][0]`
when the choices array is empty; the generic `except Exception` handler
prints it. -/
def pyIndexErrorText : List Char := ("list index out of range").toList

/-- `make_non_streaming_call` (lines 131-187 of cli_prompt_grok.py), as a
function of the outcome of the HTTP interaction.  It returns the
`(content, reasoning_content, tokens)` triple together with the console
messages printed by the exception handlers.  On success, `content` and
`reasoning_content` are the first choice's fields (defaulted to `""`)
passed through `clean_response`, and `tokens` is the raw
`data.get("usage", {})` object - the local recomputation of
`total_tokens` on lines 159-161 is commented out (dead) in the source and
is not performed.  An empty `choices` array makes `data["choices"][0]`
raise, which the generic handler converts to `(None, None, None)`. -/
def make_non_streaming_call (o : CallOutcome) :
    (Option (List Char) × Option (List Char) × Option Usage) × List ConsoleMsg :=
  match o with
  | .success d =>
    match d.choices with
    | [] => ((none, none, none), [.genericErrorNotice pyIndexErrorText])
    | ch :: _ =>
      ((some (clean_response (ch.content.getD [])),
        some (clean_response (ch.reasoning_content.getD [])),
        some (d.usage.getD ⟨none, none, none⟩)), [])
  | .keyboardInterrupt => ((none, none, none), [.interruptedNotice])
  | .httpStatusError st tx => ((none, none, none), [.httpErrorNotice st tx])
  | .requestError m => ((none, none, none), [.networkErrorNotice m])
  | .otherError m => ((none, none, none), [.genericErrorNotice m])

/-! ### API client: streaming call -/

/-- `choices[i].delta` of a streaming frame. -/
structure DeltaChoice where
  delta_content : Option (List Char)
deriving DecidableEq

/-- A parsed streaming JSON frame: its `choices` array. -/
structure StreamFrame where
  choices : List DeltaChoice
deriving DecidableEq

/-- The SSE data-event marker `"data: "`. -/
def dataMarker : List Char := ['d', 'a', 't', 'a', ':', ' ']

/-- The stream-terminator sentinel line `"data: [DONE]"`. -/
def doneSentinel : List Char := dataMarker ++ ['[', 'D', 'O', 'N', 'E', ']']

/-- The line-processing loop of `make_streaming_call`
(lines 206-211 of cli_prompt_grok.py):
```
for chunk in response.iter_lines():
    if chunk.startswith("data: ") and chunk != "data: [DONE]":
        data = json.loads(chunk[6:])
        if data.get("choices"):
            yield data["choices"][0]["delta"].get("content", "")
```
`json.loads` is library code outside the repository and is abstracted as
the `parse` parameter; the generator's yields are collected into a list
in arrival order. -/
def make_streaming_call (parse : List Char → StreamFrame) :
    List (List Char) → List (List Char)
  | [] => []
  | chunk :: rest =>
    (if beginsWith dataMarker chunk && !(chunk == doneSentinel) then
      match (parse (chunk.drop 6)).choices with
      | [] => []
      | ch :: _ => [ch.delta_content.getD []]
    else []) ++ make_streaming_call parse rest

/-! ### Render pipeline -/

/-- The backtick character. -/
def bq : Char := Char.ofNat 96

/-- The triple-backtick fence marker. -/
def tq : List Char := [bq, bq, bq]

/-- Split `l` at the first occurrence of the triple-backtick marker,
returning the text before and after it; `none` when there is none. -/
def findTriple : List Char → Option (List Char × List Char)
  | [] => none
  | c :: rest =>
    if beginsWith tq (c :: rest) then some ([], rest.drop 2)
    else
      match findTriple rest with
      | some (a, b) => some (c :: a, b)
      | none => none

/-- The leftmost match of the regex `(```.*?```)` with `re.DOTALL`
(line 295 of cli_prompt_grok.py): the first triple backtick, the
non-greedy (earliest) closing triple backtick after it, and the
surrounding text.  Returns `(before, fenced block, after)`. -/
def findFence (s : List Char) : Option (List Char × List Char × List Char) :=
  match findTriple s with
  | none => none
  | some (pre, rest1) =>
    match findTriple rest1 with
    | none => none
    | some (mid, post) => some (pre, tq ++ mid ++ tq, post)

/-- Concatenate a list of lists. -/
def catLists {α : Type} : List (List α) → List α
  | [] => []
  | x :: xs => x ++ catLists xs

/-- `re.split(r'(```.*?```)', response, flags=re.DOTALL)` with fuel (each
match consumes at least six characters, so `s.length` steps always
suffice).  The captured fenced blocks are kept as parts, in document
order. -/
def resplitF : ℕ → List Char → List (List Char)
  | 0, s => [s]
  | n + 1, s =>
    match findFence s with
    | none => [s]
    | some (pre, block, post) => pre :: block :: resplitF n post

/-- `re.split(r'(```.*?```)', response, flags=re.DOTALL)` (line 295). -/
def resplit (s : List Char) : List (List Char) := resplitF s.length s

/-- Python `part.endswith(p)`. -/
def endsWith (p l : List Char) : Bool := beginsWith p.reverse l.reverse

/-- Drop the last three characters (together with `List.drop 3` this is
Python's `part[3:-3]`). -/
def dropLast3 (l : List Char) : List Char := l.take (l.length - 3)

/-- A rendered segment: a syntax-highlighted code block or formatted
prose. -/
inductive Seg
  | code (lang : List Char) (body : List Char)
  | prose (text : List Char)
deriving DecidableEq

/-- The default language tag `"text"`. -/
def textLang : List Char := ['t', 'e', 'x', 't']

/-- The per-part dispatch of the render loop (lines 296-308 of
cli_prompt_grok.py): a part that starts and ends with the fence marker is
rendered as code (fences stripped, first non-blank line as language tag,
empty bodies skipped); any other part is run through `clean_response` and
rendered as prose when non-blank. -/
def renderPart (part : List Char) : List Seg :=
  if beginsWith tq part && endsWith tq part then
    let code_content := stripChars (dropLast3 (part.drop 3))
    let ls := splitNL code_content
    let lang := if stripChars (ls.headD []) ≠ [] then stripChars (ls.headD []) else textLang
    let code :=
      stripChars (joinNL (if stripChars (ls.headD []) ≠ [] then ls.tail else ls))
    if code ≠ [] then [Seg.code lang code] else []
  else
    let p := clean_response part
    if stripChars p ≠ [] then [Seg.prose p] else []

/-- The full render pipeline (lines 295-308): split into parts and render
each part, in document order. -/
def renderSegs (s : List Char) : List Seg := catLists ((resplit s).map renderPart)

/-! ### Interactive loop -/

/-- The state of one turn of the interactive loop. -/
inductive LoopState
  | awaiting
  | exited
deriving DecidableEq

/-- An API dispatch performed by the loop body. -/
inductive CallKind
  | nonStreaming (prompt model : List Char)
  | streaming (prompt model : List Char)
deriving DecidableEq

/-- Python `str.lower()` restricted to ASCII letters. -/
def asciiLower (c : Char) : Char :=
  if 'A' ≤ c ∧ c ≤ 'Z' then Char.ofNat (c.toNat + 32) else c

/-- `prompt.lower()`. -/
def lowerStr (l : List Char) : List Char := l.map asciiLower

/-- The interactive keyword `"exit"`. -/
def exitWord : List Char := ['e', 'x', 'i', 't']

/-- The interactive keyword `"help"`. -/
def helpWord : List Char := ['h', 'e', 'l', 'p']

/-- One iteration of the `while True` loop of `prompt_grok`
(lines 251-264 of cli_prompt_grok.py), from reading a raw input line to
either exiting or dispatching: the input is stripped; `"exit"`
(case-insensitively) breaks the loop; `"help"` and blank input loop
without dispatching; anything else dispatches exactly one API call of the
kind selected by the `stream` flag.  Returns the next state and the list
of API calls made. -/
def promptGrokStep (stream : Bool) (model rawLine : List Char) :
    LoopState × List CallKind :=
  let prompt := stripChars rawLine
  if lowerStr prompt = exitWord then (LoopState.exited, [])
  else if lowerStr prompt = helpWord then (LoopState.awaiting, [])
  else if prompt = [] then (LoopState.awaiting, [])
  else
    (LoopState.awaiting,
      [if stream then CallKind.streaming prompt model else CallKind.nonStreaming prompt model])

/-! ### Line-level model of the blank-line collapse (used in proofs) -/

/-- Line-level counterpart of the `\n\s*\n+` replacement, walking the
list of newline-separated segments.  In mode `false` a run of
whitespace-only segments followed by a further segment is collapsed to
one empty segment (a single blank line); mode `true` is the "inside a
match, swallowing the rest of the run" state.  The final segment is never
the start of a match (the regex needs a trailing newline). -/
def collAux : List (List Char) → Bool → List (List Char)
  | [], _ => []
  | [s], _ => [s]
  | s :: rest, mode =>
    if wsOnly s then
      if mode then collAux rest true else [] :: collAux rest true
    else s :: collAux rest false

/-- The blank-line collapse on the list of lines: the first segment is
not preceded by a newline, so matches can only start at the separators
that follow it. -/
def collapseLines (L : List (List Char)) : List (List Char) :=
  match L with
  | [] => []
  | s :: rest => s :: collAux rest false

/-- Apply `f` to the last element of a list. -/
def modLast (f : List Char → List Char) : List (List Char) → List (List Char)
  | [] => []
  | [x] => [f x]
  | x :: xs => x :: modLast f xs

/-- The non-blank lines of a text, each sent through the per-line
cleaning step (used to compare the input's lines with the output's
lines in proofs). -/
def cleanVisibleLines (x : List Char) : List (List Char) :=
  ((splitNL x).filter (fun l => !(wsOnly l))).map cleanLine

/-! ### Whitespace and strip lemmas -/

theorem isWS_nl : isWS '\n' = true := by decide

theorem wsOnly_nil : wsOnly [] = true := rfl

theorem wsOnly_cons (c : Char) (l : List Char) :
    wsOnly (c :: l) = (isWS c && wsOnly l) := rfl

theorem wsOnly_append (a b : List Char) :
    wsOnly (a ++ b) = (wsOnly a && wsOnly b) := by
  simp [wsOnly, List.all_append]

theorem wsOnly_iff {l : List Char} :
    wsOnly l = true ↔ ∀ c ∈ l, isWS c = true := by
  simp [wsOnly, List.all_eq_true]

theorem wsOnly_reverse (l : List Char) : wsOnly l.reverse = wsOnly l := by
  simp [wsOnly, List.all_eq_true]

theorem dropWhile_ws_append {w : List Char} (t : List Char) (hw : wsOnly w = true) :
    (w ++ t).dropWhile isWS = t.dropWhile isWS := by
  induction w with
  | nil => rfl
  | cons c w' ih =>
    rw [wsOnly_cons, Bool.and_eq_true] at hw
    simp [List.dropWhile, hw.1, ih hw.2]

theorem dropTrail_append_ws {w : List Char} (l : List Char) (hw : wsOnly w = true) :
    dropTrailWS (l ++ w) = dropTrailWS l := by
  unfold dropTrailWS
  rw [List.reverse_append, dropWhile_ws_append _ (by rw [wsOnly_reverse]; exact hw)]

theorem stripChars_cons_ws {c : Char} (l : List Char) (hc : isWS c = true) :
    stripChars (c :: l) = stripChars l := by
  unfold stripChars
  simp [List.dropWhile, hc]

theorem stripChars_ws_append {w : List Char} (l : List Char) (hw : wsOnly w = true) :
    stripChars (w ++ l) = stripChars l := by
  unfold stripChars
  rw [dropWhile_ws_append _ hw]

theorem stripChars_append_ws {w : List Char} (l : List Char) (hw : wsOnly w = true) :
    stripChars (l ++ w) = stripChars l := by
  unfold stripChars
  rw [List.dropWhile_append]
  by_cases h : (l.dropWhile isWS).isEmpty
  · rw [if_pos h]
    have hwnil : w.dropWhile isWS = [] :=
      List.dropWhile_eq_nil_iff.mpr fun x hx => wsOnly_iff.mp hw x hx
    have hlnil : l.dropWhile isWS = [] := List.isEmpty_iff.mp h
    rw [hwnil, hlnil]
  · rw [if_neg h]
    exact dropTrail_append_ws _ hw

theorem exists_dropTrail_decomp (l : List Char) :
    ∃ w, wsOnly w = true ∧ l = dropTrailWS l ++ w := by
  refine ⟨(l.reverse.takeWhile isWS).reverse, ?_, ?_⟩
  · rw [wsOnly_reverse]
    exact wsOnly_iff.mpr fun c hc => List.mem_takeWhile_imp hc
  · unfold dropTrailWS
    calc l = l.reverse.reverse := by simp
      _ = (l.reverse.takeWhile isWS ++ l.reverse.dropWhile isWS).reverse := by
          rw [List.takeWhile_append_dropWhile]
      _ = (l.reverse.dropWhile isWS).reverse ++ (l.reverse.takeWhile isWS).reverse := by
          rw [List.reverse_append]

theorem exists_strip_decomp (l : List Char) :
    ∃ w w2, wsOnly w = true ∧ wsOnly w2 = true ∧ l = w ++ stripChars l ++ w2 := by
  obtain ⟨w2, hw2, hd⟩ := exists_dropTrail_decomp (l.dropWhile isWS)
  refine ⟨l.takeWhile isWS, w2, ?_, hw2, ?_⟩
  · exact wsOnly_iff.mpr fun c hc => List.mem_takeWhile_imp hc
  · have hsw : stripChars l ++ w2 = l.dropWhile isWS := by
      unfold stripChars
      exact hd.symm
    rw [List.append_assoc, hsw, List.takeWhile_append_dropWhile]

theorem stripChars_eq_nil_iff {l : List Char} :
    stripChars l = [] ↔ wsOnly l = true := by
  constructor
  · intro h
    obtain ⟨w, w2, hw, hw2, hl⟩ := exists_strip_decomp l
    rw [h] at hl
    rw [hl, wsOnly_append, wsOnly_append, hw, hw2, wsOnly_nil]
    rfl
  · intro h
    unfold stripChars
    have : l.dropWhile isWS = [] :=
      List.dropWhile_eq_nil_iff.mpr fun x hx => wsOnly_iff.mp h x hx
    rw [this]
    rfl

theorem head_dropWhile_ws : ∀ {l : List Char} {c : Char} {r : List Char},
    l.dropWhile isWS = c :: r → isWS c = false := by
  intro l
  induction l with
  | nil => intro c r h; simp at h
  | cons a l' ih =>
    intro c r h
    by_cases ha : isWS a = true
    · rw [List.dropWhile_cons_of_pos ha] at h
      exact ih h
    · rw [List.dropWhile_cons_of_neg ha] at h
      obtain ⟨rfl, _⟩ := List.cons.injEq .. ▸ h
      exact Bool.eq_false_iff.mpr ha

theorem not_ws_head_strip : ∀ {l : List Char} {c : Char} {r : List Char},
    stripChars l = c :: r → isWS c = false := by
  intro l c r h
  obtain ⟨w2, _, hd⟩ := exists_dropTrail_decomp (l.dropWhile isWS)
  have : l.dropWhile isWS = c :: (r ++ w2) := by
    rw [hd]
    unfold stripChars at h
    rw [h]
    simp
  exact head_dropWhile_ws this

theorem not_ws_last_strip : ∀ {l : List Char} {c : Char},
    (stripChars l).getLast? = some c → isWS c = false := by
  intro l c h
  unfold stripChars dropTrailWS at h
  rw [List.getLast?_reverse] at h
  cases hd : ((l.dropWhile isWS).reverse.dropWhile isWS) with
  | nil => rw [hd] at h; simp at h
  | cons x xs =>
    rw [hd] at h
    have hx : x = c := by simpa using h
    subst hx
    exact head_dropWhile_ws hd

theorem strip_eq_self {l : List Char}
    (h1 : ∀ c r, l = c :: r → isWS c = false)
    (h2 : ∀ c, l.getLast? = some c → isWS c = false) :
    stripChars l = l := by
  have hd : l.dropWhile isWS = l := by
    cases l with
    | nil => rfl
    | cons c r => rw [List.dropWhile_cons_of_neg (by simp [h1 c r rfl])]
  unfold stripChars
  rw [hd]
  unfold dropTrailWS
  have hr : l.reverse.dropWhile isWS = l.reverse := by
    cases hrev : l.reverse with
    | nil => rfl
    | cons c r =>
      rw [List.dropWhile_cons_of_neg]
      have : l.getLast? = some c := by
        rw [← List.head?_reverse, hrev]
        rfl
      simp [h2 c this]
  rw [hr, List.reverse_reverse]

theorem stripChars_idem (l : List Char) : stripChars (stripChars l) = stripChars l := by
  apply strip_eq_self
  · intro c r h; exact not_ws_head_strip h
  · intro c h; exact not_ws_last_strip h

theorem wsOnly_false_of_strip_cons {l c r} (h : stripChars l = c :: r) :
    wsOnly (stripChars l) = false := by
  rw [h, wsOnly_cons, not_ws_head_strip h]
  rfl

/-! ### splitNL and joinNL lemmas -/

theorem splitNL_cons_nl (v : List Char) : splitNL ('\n' :: v) = [] :: splitNL v := by
  simp [splitNL]

theorem splitNL_ne_nil : ∀ v : List Char, splitNL v ≠ [] := by
  intro v
  induction v with
  | nil => simp [splitNL]
  | cons c v' ih =>
    by_cases hc : c = '\n'
    · subst hc
      simp [splitNL]
    · unfold splitNL
      rw [if_neg hc]
      cases h : splitNL v' with
      | nil => simp
      | cons a b => simp

theorem splitNL_cons_of_ne {c : Char} {v h : List Char} {t : List (List Char)}
    (hc : c ≠ '\n') (hv : splitNL v = h :: t) :
    splitNL (c :: v) = (c :: h) :: t := by
  unfold splitNL
  rw [if_neg hc, hv]

theorem splitNL_no_nl : ∀ (v : List Char), ∀ l ∈ splitNL v, '\n' ∉ l := by
  intro v
  induction v with
  | nil =>
    intro l hl
    simp [splitNL] at hl
    simp [hl]
  | cons c v' ih =>
    intro l hl
    by_cases hc : c = '\n'
    · subst hc
      rw [splitNL_cons_nl] at hl
      rcases List.mem_cons.mp hl with rfl | hl
      · simp
      · exact ih l hl
    · obtain ⟨h, t, hv⟩ : ∃ h t, splitNL v' = h :: t := by
        cases hsp : splitNL v' with
        | nil => exact absurd hsp (splitNL_ne_nil v')
        | cons a b => exact ⟨a, b, rfl⟩
      rw [splitNL_cons_of_ne hc hv] at hl
      rcases List.mem_cons.mp hl with rfl | hl
      · intro hmem
        rcases List.mem_cons.mp hmem with h1 | h1
        · exact hc h1.symm
        · exact ih h (by rw [hv]; exact List.mem_cons_self ..) h1
      · exact ih l (by rw [hv]; exact List.mem_cons_of_mem _ hl)

theorem joinNL_cons {l : List Char} {ls : List (List Char)} (h : ls ≠ []) :
    joinNL (l :: ls) = l ++ '\n' :: joinNL ls := by
  cases ls with
  | nil => exact absurd rfl h
  | cons x xs => rfl

theorem joinNL_cons_head (c : Char) (h : List Char) (T : List (List Char)) :
    joinNL ((c :: h) :: T) = c :: joinNL (h :: T) := by
  cases T with
  | nil => rfl
  | cons x xs => rfl

theorem splitNL_of_no_nl : ∀ {l : List Char}, '\n' ∉ l → splitNL l = [l] := by
  intro l
  induction l with
  | nil => intro _; rfl
  | cons c l' ih =>
    intro h
    have hc : c ≠ '\n' := fun hx => h (hx ▸ List.mem_cons_self ..)
    have hl' : '\n' ∉ l' := fun hx => h (List.mem_cons_of_mem _ hx)
    exact splitNL_cons_of_ne hc (ih hl')

theorem splitNL_append {l v : List Char} {h2 : List Char} {t2 : List (List Char)}
    (h : '\n' ∉ l) (hv : splitNL v = h2 :: t2) :
    splitNL (l ++ v) = (l ++ h2) :: t2 := by
  induction l with
  | nil => simpa using hv
  | cons c l' ih =>
    have hc : c ≠ '\n' := fun hx => h (hx ▸ List.mem_cons_self ..)
    have hl' : '\n' ∉ l' := fun hx => h (List.mem_cons_of_mem _ hx)
    rw [List.cons_append, splitNL_cons_of_ne hc (ih hl')]
    rfl

theorem split_join : ∀ L : List (List Char), (∀ l ∈ L, '\n' ∉ l) → L ≠ [] →
    splitNL (joinNL L) = L := by
  intro L
  induction L with
  | nil => intro _ h; exact absurd rfl h
  | cons l ls ih =>
    intro hno _
    cases ls with
    | nil => exact splitNL_of_no_nl (hno l (List.mem_cons_self ..))
    | cons x xs =>
      rw [joinNL_cons (by simp)]
      have hrec : splitNL (joinNL (x :: xs)) = x :: xs :=
        ih (fun a ha => hno a (List.mem_cons_of_mem _ ha)) (by simp)
      have hnl : splitNL ('\n' :: joinNL (x :: xs)) = [] :: x :: xs := by
        rw [splitNL_cons_nl, hrec]
      have := splitNL_append (hno l (List.mem_cons_self ..)) hnl
      simpa using this
/-! ### Equivalence of the scanner with the line-level model -/

theorem collAux_nil (mode : Bool) : collAux [] mode = [] := rfl

theorem collAux_singleton (s : List Char) (mode : Bool) : collAux [s] mode = [s] := rfl

theorem collAux_cons_cons (s x : List Char) (t : List (List Char)) (mode : Bool) :
    collAux (s :: x :: t) mode =
      if wsOnly s then
        (if mode then collAux (x :: t) true else [] :: collAux (x :: t) true)
      else s :: collAux (x :: t) false := rfl

theorem collapseLines_cons (h : List Char) (t : List (List Char)) :
    collapseLines (h :: t) = h :: collAux t false := rfl

theorem cbAux_cons (skip : Bool) (c : Char) (rest : List Char) :
    cbAux skip (c :: rest) =
      if skip && (afterLastNL (c :: rest)).isSome then cbAux true rest
      else if c = '\n' then
        if (afterLastNL rest).isSome then '\n' :: '\n' :: cbAux true rest
        else '\n' :: cbAux false rest
      else c :: cbAux false rest := rfl

theorem exists_splitNL_cons (v : List Char) :
    ∃ h t, splitNL v = h :: t := by
  cases hsp : splitNL v with
  | nil => exact absurd hsp (splitNL_ne_nil v)
  | cons a b => exact ⟨a, b, rfl⟩

theorem afterLastNL_some_inv {c : Char} {rest r : List Char}
    (h : afterLastNL (c :: rest) = some r) :
    isWS c = true ∧
      (afterLastNL rest = some r ∨
        (afterLastNL rest = none ∧ c = '\n' ∧ r = rest)) := by
  unfold afterLastNL at h
  by_cases hw : isWS c = true
  · rw [if_pos hw] at h
    refine ⟨hw, ?_⟩
    cases ha : afterLastNL rest with
    | some r2 =>
      simp only [ha] at h
      left
      simpa using h
    | none =>
      simp only [ha] at h
      by_cases hc : c = '\n'
      · rw [if_pos hc] at h
        right
        exact ⟨rfl, hc, by simpa using h.symm⟩
      · rw [if_neg hc] at h
        simp at h
  · rw [if_neg hw] at h
    simp at h

theorem afterLastNL_length : ∀ {v r : List Char}, afterLastNL v = some r →
    r.length < v.length := by
  intro v
  induction v with
  | nil => intro r h; simp [afterLastNL] at h
  | cons c v' ih =>
    intro r h
    obtain ⟨_, hcase⟩ := afterLastNL_some_inv h
    rcases hcase with ha | ⟨_, _, rfl⟩
    · exact Nat.lt_trans (ih ha) (by simp)
    · simp

theorem afterLastNL_some_split : ∀ {v r : List Char}, afterLastNL v = some r →
    ∀ h t, splitNL v = h :: t → wsOnly h = true ∧ t ≠ [] := by
  intro v
  induction v with
  | nil => intro r h; simp [afterLastNL] at h
  | cons c v' ih =>
    intro r h ha ta hsp
    obtain ⟨hw, hcase⟩ := afterLastNL_some_inv h
    obtain ⟨h', t', hv'⟩ := exists_splitNL_cons v'
    by_cases hc : c = '\n'
    · subst hc
      rw [splitNL_cons_nl, hv'] at hsp
      injection hsp with h1 h2
      subst h1
      subst h2
      exact ⟨wsOnly_nil, by simp⟩
    · rcases hcase with ha2 | ⟨_, hc2, _⟩
      · rw [splitNL_cons_of_ne hc hv'] at hsp
        injection hsp with h1 h2
        subst h1
        subst h2
        obtain ⟨hwh, htne⟩ := ih ha2 h' t' hv'
        exact ⟨by rw [wsOnly_cons, hw, hwh]; rfl, htne⟩
      · exact absurd hc2 hc

theorem afterLastNL_none_split : ∀ {v : List Char}, afterLastNL v = none →
    ∀ h t, splitNL v = h :: t → wsOnly h = true → t = [] := by
  intro v
  induction v with
  | nil =>
    intro _ h t hsp _
    have hsp2 : [[]] = h :: t := hsp
    injection hsp2 with h1 h2
    exact h2.symm
  | cons c v' ih =>
    intro hn ha ta hsp hws
    obtain ⟨h', t', hv'⟩ := exists_splitNL_cons v'
    by_cases hc : c = '\n'
    · subst hc
      exfalso
      unfold afterLastNL at hn
      rw [if_pos isWS_nl] at hn
      cases ha2 : afterLastNL v' with
      | some r => simp only [ha2] at hn; simp at hn
      | none => simp only [ha2] at hn; simp at hn
    · rw [splitNL_cons_of_ne hc hv'] at hsp
      injection hsp with h1 h2
      subst h1
      subst h2
      rw [wsOnly_cons, Bool.and_eq_true] at hws
      have ha2 : afterLastNL v' = none := by
        unfold afterLastNL at hn
        rw [if_pos hws.1] at hn
        cases ha3 : afterLastNL v' with
        | some r => simp only [ha3] at hn; simp at hn
        | none => rfl
      exact ih ha2 h' t' hv' hws.2

theorem collAux_eq_collapseLines_of {h : List Char} {t : List (List Char)} (mode : Bool)
    (hcond : ¬(wsOnly h = true ∧ t ≠ [])) :
    collAux (h :: t) mode = collapseLines (h :: t) := by
  cases t with
  | nil => rfl
  | cons x xs =>
    have hws : wsOnly h = false := by
      cases hb : wsOnly h
      · rfl
      · exact absurd ⟨hb, by simp⟩ hcond
    rw [collAux_cons_cons, collapseLines_cons, if_neg (by simp [hws])]

theorem collAux_of_none {v : List Char} (hn : afterLastNL v = none) (mode : Bool) :
    collAux (splitNL v) mode = collapseLines (splitNL v) := by
  obtain ⟨h, t, hv⟩ := exists_splitNL_cons v
  rw [hv]
  apply collAux_eq_collapseLines_of
  rintro ⟨hws, hne⟩
  exact hne (afterLastNL_none_split hn h t hv hws)

theorem collAux_true_some : ∀ (v r : List Char), afterLastNL v = some r →
    collAux (splitNL v) true = collapseLines (splitNL r) := by
  intro v
  induction v with
  | nil => intro r h; simp [afterLastNL] at h
  | cons c v' ih =>
    intro r h
    obtain ⟨hw, hcase⟩ := afterLastNL_some_inv h
    obtain ⟨h', t', hv'⟩ := exists_splitNL_cons v'
    rcases hcase with ha | ⟨ha, hc, hr⟩
    · by_cases hc : c = '\n'
      · subst hc
        rw [splitNL_cons_nl, hv', collAux_cons_cons, if_pos wsOnly_nil, if_pos rfl,
          ← hv']
        exact ih r ha
      · obtain ⟨hwh, htne⟩ := afterLastNL_some_split ha h' t' hv'
        obtain ⟨x, xs, rfl⟩ := List.exists_cons_of_ne_nil htne
        rw [splitNL_cons_of_ne hc hv', collAux_cons_cons,
          if_pos (by rw [wsOnly_cons, hw, hwh]; rfl), if_pos rfl]
        have h2 : collAux (h' :: x :: xs) true = collAux (x :: xs) true := by
          rw [collAux_cons_cons, if_pos hwh, if_pos rfl]
        rw [← h2, ← hv']
        exact ih r ha
    · subst hc
      subst hr
      rw [splitNL_cons_nl, hv', collAux_cons_cons, if_pos wsOnly_nil, if_pos rfl, ← hv']
      exact collAux_of_none ha true

theorem collAux_false_some {v r : List Char} (h : afterLastNL v = some r) :
    collAux (splitNL v) false = [] :: collapseLines (splitNL r) := by
  cases v with
  | nil => simp [afterLastNL] at h
  | cons c v' =>
    obtain ⟨hw, hcase⟩ := afterLastNL_some_inv h
    obtain ⟨h', t', hv'⟩ := exists_splitNL_cons v'
    by_cases hc : c = '\n'
    · subst hc
      rw [splitNL_cons_nl, hv', collAux_cons_cons, if_pos wsOnly_nil,
        if_neg (by simp), ← hv']
      rcases hcase with ha | ⟨ha, _, hr⟩
      · rw [collAux_true_some v' r ha]
      · subst hr
        rw [collAux_of_none ha true]
    · rcases hcase with ha | ⟨_, hc2, _⟩
      · obtain ⟨hwh, htne⟩ := afterLastNL_some_split ha h' t' hv'
        obtain ⟨x, xs, rfl⟩ := List.exists_cons_of_ne_nil htne
        rw [splitNL_cons_of_ne hc hv', collAux_cons_cons,
          if_pos (by rw [wsOnly_cons, hw, hwh]; rfl), if_neg (by simp)]
        have h2 : collAux (h' :: x :: xs) true = collAux (x :: xs) true := by
          rw [collAux_cons_cons, if_pos hwh, if_pos rfl]
        rw [← h2, ← hv', collAux_true_some v' r ha]
      · exact absurd hc2 hc

theorem cbAux_true_of_none {v : List Char} (h : afterLastNL v = none) :
    cbAux true v = cbAux false v := by
  cases v with
  | nil => rfl
  | cons c rest =>
    rw [cbAux_cons, cbAux_cons, h]
    simp

theorem cbAux_skip : ∀ (v r : List Char), afterLastNL v = some r →
    cbAux true v = cbAux false r := by
  intro v
  induction v with
  | nil => intro r h; simp [afterLastNL] at h
  | cons c v' ih =>
    intro r h
    obtain ⟨hw, hcase⟩ := afterLastNL_some_inv h
    rw [cbAux_cons, h]
    rw [if_pos (by simp)]
    rcases hcase with ha | ⟨ha, _, hr⟩
    · exact ih r ha
    · subst hr
      exact cbAux_true_of_none ha

theorem collapseLines_ne_nil (u : List Char) : collapseLines (splitNL u) ≠ [] := by
  obtain ⟨h, t, hv⟩ := exists_splitNL_cons u
  rw [hv, collapseLines_cons]
  simp

/-- The scanner `collapseBlank` agrees with the line-level model: it is
the blank-line collapse `collapseLines` read back through split/join. -/
theorem collapseBlank_eq_lines (u : List Char) :
    collapseBlank u = joinNL (collapseLines (splitNL u)) := by
  have main : ∀ n : ℕ, ∀ u : List Char, u.length ≤ n →
      cbAux false u = joinNL (collapseLines (splitNL u)) := by
    intro n
    induction n with
    | zero =>
      intro u hu
      have : u = [] := List.length_eq_zero.mp (Nat.le_zero.mp hu)
      subst this
      rfl
    | succ n' ih =>
      intro u hu
      cases u with
      | nil => rfl
      | cons c v =>
        obtain ⟨h, t, hv⟩ := exists_splitNL_cons v
        have hvlen : v.length ≤ n' := by
          simp only [List.length_cons] at hu
          omega
        by_cases hc : c = '\n'
        · subst hc
          have hstep : cbAux false ('\n' :: v) =
              if (afterLastNL v).isSome then '\n' :: '\n' :: cbAux true v
              else '\n' :: cbAux false v := by
            rw [cbAux_cons, if_neg (by simp), if_pos rfl]
          rw [hstep, splitNL_cons_nl]
          cases ha : afterLastNL v with
          | some r =>
            rw [if_pos (by simp)]
            have hr : r.length ≤ n' := by
              have := afterLastNL_length ha
              omega
            rw [cbAux_skip v r ha, ih r hr]
            have hA : collapseLines ([] :: splitNL v) =
                [] :: [] :: collapseLines (splitNL r) := by
              rw [collapseLines_cons, collAux_false_some ha]
            rw [hA, joinNL_cons (by simp), joinNL_cons (collapseLines_ne_nil r)]
            rfl
          | none =>
            rw [if_neg (by simp)]
            rw [ih v hvlen]
            have hA : collapseLines ([] :: splitNL v) =
                [] :: collapseLines (splitNL v) := by
              rw [collapseLines_cons, collAux_of_none ha false]
            rw [hA, joinNL_cons (collapseLines_ne_nil v)]
            rfl
        · have hstep : cbAux false (c :: v) = c :: cbAux false v := by
            rw [cbAux_cons, if_neg (by simp), if_neg hc]
          rw [hstep, ih v hvlen, splitNL_cons_of_ne hc hv]
          rw [collapseLines_cons, hv, collapseLines_cons, joinNL_cons_head]
  exact main u.length u (le_refl _)

theorem collAux_mem : ∀ {X : List (List Char)} {mode : Bool} {a : List Char},
    a ∈ collAux X mode → a = [] ∨ a ∈ X := by
  intro X
  induction X with
  | nil => intro mode a ha; simp [collAux_nil] at ha
  | cons x xs ihX =>
    intro mode a ha
    cases xs with
    | nil =>
      rw [collAux_singleton] at ha
      simp at ha
      subst ha
      exact Or.inr (List.mem_cons_self ..)
    | cons y ys =>
      rw [collAux_cons_cons] at ha
      by_cases hws : wsOnly x = true
      · rw [if_pos hws] at ha
        cases mode with
        | true =>
          rw [if_pos rfl] at ha
          rcases ihX ha with h1 | h1
          · exact Or.inl h1
          · exact Or.inr (List.mem_cons_of_mem _ h1)
        | false =>
          rw [if_neg (by simp)] at ha
          rcases List.mem_cons.mp ha with rfl | ha
          · exact Or.inl rfl
          · rcases ihX ha with h1 | h1
            · exact Or.inl h1
            · exact Or.inr (List.mem_cons_of_mem _ h1)
      · rw [if_neg hws] at ha
        rcases List.mem_cons.mp ha with rfl | ha
        · exact Or.inr (List.mem_cons_self ..)
        · rcases ihX ha with h1 | h1
          · exact Or.inl h1
          · exact Or.inr (List.mem_cons_of_mem _ h1)

theorem collapseLines_no_nl {u : List Char} :
    ∀ l ∈ collapseLines (splitNL u), '\n' ∉ l := by
  intro l hl
  obtain ⟨h, t, hv⟩ := exists_splitNL_cons u
  rw [hv, collapseLines_cons] at hl
  rcases List.mem_cons.mp hl with rfl | hl
  · exact splitNL_no_nl u l (by rw [hv]; exact List.mem_cons_self ..)
  · rcases collAux_mem hl with rfl | h1
    · simp
    · exact splitNL_no_nl u l (by rw [hv]; exact List.mem_cons_of_mem _ h1)

/-- `clean_response` in line-level normal form: strip, split into lines,
collapse blank-line runs, clean each line, join, strip.  Every function
on the right-hand side is structurally recursive, so concrete instances
evaluate by `decide`. -/
theorem clean_response_eq (s : List Char) :
    clean_response s =
      stripChars (joinNL ((collapseLines (splitNL (stripChars s))).map cleanLine)) := by
  by_cases hs : s = []
  · subst hs
    rfl
  · unfold clean_response
    rw [if_neg hs]
    have hL : splitNL (collapseBlank (stripChars s)) =
        collapseLines (splitNL (stripChars s)) := by
      rw [collapseBlank_eq_lines]
      exact split_join _ collapseLines_no_nl (collapseLines_ne_nil (stripChars s))
    rw [hL]
/-! ### Structural properties of the blank-line collapse -/

theorem exists_getLast? {α : Type} {l : List α} (h : l ≠ []) :
    ∃ c, l.getLast? = some c := by
  have hr : l.reverse ≠ [] := by simpa using h
  obtain ⟨c, cs, hc⟩ := List.exists_cons_of_ne_nil hr
  refine ⟨c, ?_⟩
  rw [← List.head?_reverse, hc]
  rfl

theorem getLast?_cons_ne_nil {α : Type} (x : α) {l : List α} (h : l ≠ []) :
    (x :: l).getLast? = l.getLast? := by
  obtain ⟨y, ys, rfl⟩ := List.exists_cons_of_ne_nil h
  rfl

theorem mem_of_getLast?_eq {α : Type} {l : List α} {a : α}
    (h : l.getLast? = some a) : a ∈ l := by
  rw [← List.head?_reverse] at h
  have hm : a ∈ l.reverse := by
    cases hr : l.reverse with
    | nil => rw [hr] at h; cases h
    | cons x xs =>
      rw [hr] at h
      have h2 : x = a := by simpa using h
      subst h2
      exact List.mem_cons_self ..
  simpa using hm

theorem collAux_props : ∀ (X : List (List Char)), X ≠ [] →
    (∀ lst, X.getLast? = some lst → wsOnly lst = false) → ∀ mode : Bool,
    collAux X mode ≠ [] ∧ (collAux X mode).getLast? = X.getLast? ∧
    List.Chain' (fun a b => ¬(wsOnly a = true ∧ wsOnly b = true)) (collAux X mode) ∧
    (mode = true → ∀ hd, (collAux X mode).head? = some hd → wsOnly hd = false) := by
  intro X
  induction X with
  | nil => intro h; exact absurd rfl h
  | cons x xs ih =>
    intro _ hlast mode
    cases xs with
    | nil =>
      rw [collAux_singleton]
      refine ⟨by simp, rfl, List.chain'_singleton x, ?_⟩
      intro _ hd hhd
      have hxhd : x = hd := by simpa using hhd
      subst hxhd
      exact hlast x rfl
    | cons y ys =>
      have hlast' : ∀ lst, (y :: ys).getLast? = some lst → wsOnly lst = false := by
        intro lst hl
        exact hlast lst (by rw [List.getLast?_cons_cons]; exact hl)
      have ihT := ih (by simp) hlast' true
      have ihF := ih (by simp) hlast' false
      rw [collAux_cons_cons]
      by_cases hws : wsOnly x = true
      · rw [if_pos hws]
        cases mode with
        | true =>
          rw [if_pos rfl]
          refine ⟨ihT.1, ?_, ihT.2.2.1, fun _ => ihT.2.2.2 rfl⟩
          rw [ihT.2.1, List.getLast?_cons_cons]
        | false =>
          rw [if_neg (by simp)]
          refine ⟨by simp, ?_, ?_, ?_⟩
          · rw [getLast?_cons_ne_nil _ ihT.1, ihT.2.1, List.getLast?_cons_cons]
          · refine List.chain'_cons'.mpr ⟨?_, ihT.2.2.1⟩
            intro z hz
            have hwz : wsOnly z = false := ihT.2.2.2 rfl z (by simpa using hz)
            rintro ⟨_, h2⟩
            rw [hwz] at h2
            cases h2
          · intro habs
            cases habs
      · rw [if_neg hws]
        have hcons : ∀ m : Bool, x :: collAux (y :: ys) false ≠ [] ∧
            (x :: collAux (y :: ys) false).getLast? = (x :: y :: ys).getLast? ∧
            List.Chain' (fun a b => ¬(wsOnly a = true ∧ wsOnly b = true))
              (x :: collAux (y :: ys) false) ∧
            (m = true → ∀ hd, (x :: collAux (y :: ys) false).head? = some hd →
              wsOnly hd = false) := by
          intro m
          refine ⟨by simp, ?_, ?_, ?_⟩
          · rw [getLast?_cons_ne_nil _ ihF.1, ihF.2.1, List.getLast?_cons_cons]
          · refine List.chain'_cons'.mpr ⟨?_, ihF.2.2.1⟩
            intro z _
            rintro ⟨h1, _⟩
            exact hws h1
          · intro _ hd hhd
            have hxhd : x = hd := by simpa using hhd
            subst hxhd
            simpa using hws
        cases mode with
        | true => exact hcons true
        | false => exact hcons false

theorem splitNL_getLast : ∀ (u : List Char), u ≠ [] →
    (∀ c, u.getLast? = some c → isWS c = false) →
    ∀ lst, (splitNL u).getLast? = some lst → wsOnly lst = false := by
  intro u
  induction u with
  | nil => intro h; exact absurd rfl h
  | cons c v ih =>
    intro _ hlast lst hsp
    cases v with
    | nil =>
      have hcws : isWS c = false := hlast c rfl
      have hcnl : c ≠ '\n' := by
        intro hx
        rw [hx] at hcws
        rw [isWS_nl] at hcws
        cases hcws
      rw [splitNL_cons_of_ne hcnl (show splitNL [] = [] :: [] from rfl)] at hsp
      have h2 : c :: [] = lst := by simpa using hsp
      subst h2
      rw [wsOnly_cons, hcws]
      rfl
    | cons d w =>
      have hlast' : ∀ x, (d :: w).getLast? = some x → isWS x = false := by
        intro x hx
        exact hlast x (by rw [List.getLast?_cons_cons]; exact hx)
      by_cases hc : c = '\n'
      · subst hc
        rw [splitNL_cons_nl,
          getLast?_cons_ne_nil _ (splitNL_ne_nil (d :: w))] at hsp
        exact ih (by simp) hlast' lst hsp
      · obtain ⟨h', t', hv'⟩ := exists_splitNL_cons (d :: w)
        rw [splitNL_cons_of_ne hc hv'] at hsp
        cases t' with
        | nil =>
          have h2 : c :: h' = lst := by simpa using hsp
          subst h2
          have hh' : wsOnly h' = false := ih (by simp) hlast' h' (by rw [hv']; rfl)
          rw [wsOnly_cons, hh']
          simp
        | cons z zs =>
          rw [List.getLast?_cons_cons] at hsp
          exact ih (by simp) hlast' lst (by rw [hv', List.getLast?_cons_cons]; exact hsp)

theorem splitNL_head {c : Char} (v : List Char) (hc : isWS c = false) :
    ∀ hd, (splitNL (c :: v)).head? = some hd → wsOnly hd = false := by
  intro hd hsp
  have hcnl : c ≠ '\n' := by
    intro hx
    rw [hx, isWS_nl] at hc
    cases hc
  obtain ⟨h', t', hv'⟩ := exists_splitNL_cons v
  rw [splitNL_cons_of_ne hcnl hv'] at hsp
  have h2 : c :: h' = hd := by simpa using hsp
  subst h2
  rw [wsOnly_cons, hc]
  rfl

/-! ### Basic cleanLine lemmas -/

theorem collapseWS_single_ws {c : Char} (hc : isWS c = true) :
    collapseWS [c] = [' '] := by
  simp [collapseWS, hc]

theorem collapseWS_single_not {c : Char} (hc : isWS c = false) :
    collapseWS [c] = [c] := by
  simp [collapseWS, hc]

theorem collapseWS_cons₂_ww {c d : Char} (r : List Char) (hc : isWS c = true)
    (hd : isWS d = true) : collapseWS (c :: d :: r) = collapseWS (d :: r) := by
  simp [collapseWS, hc, hd]

theorem collapseWS_cons₂_wn {c d : Char} (r : List Char) (hc : isWS c = true)
    (hd : isWS d = false) : collapseWS (c :: d :: r) = ' ' :: collapseWS (d :: r) := by
  simp [collapseWS, hc, hd]

theorem collapseWS_cons₂_n {c : Char} (d : Char) (r : List Char) (hc : isWS c = false) :
    collapseWS (c :: d :: r) = c :: collapseWS (d :: r) := by
  simp [collapseWS, hc]

theorem wsOnly_collapseWS : ∀ l : List Char, wsOnly (collapseWS l) = wsOnly l := by
  intro l
  induction l with
  | nil => rfl
  | cons c l' ih =>
    cases l' with
    | nil =>
      by_cases hc : isWS c = true
      · rw [collapseWS_single_ws hc, wsOnly_cons, wsOnly_cons, hc, wsOnly_nil]
        decide
      · rw [collapseWS_single_not (by simpa using hc)]
    | cons d r =>
      by_cases hc : isWS c = true
      · by_cases hd : isWS d = true
        · rw [collapseWS_cons₂_ww r hc hd, ih, wsOnly_cons, wsOnly_cons, wsOnly_cons,
            hc, hd]
          simp
        · have hd' : isWS d = false := by simpa using hd
          rw [collapseWS_cons₂_wn r hc hd']
          simp [wsOnly_cons, ih, hd']
      · have hc' : isWS c = false := by simpa using hc
        rw [collapseWS_cons₂_n d r hc']
        simp [wsOnly_cons, ih]

theorem cleanLine_eq_nil_iff {l : List Char} :
    cleanLine l = [] ↔ wsOnly l = true := by
  unfold cleanLine
  by_cases hm : isListMarker (stripChars l) = true
  · rw [if_pos hm]
    exact stripChars_eq_nil_iff
  · rw [if_neg hm, stripChars_eq_nil_iff, wsOnly_collapseWS]

theorem cleanLine_stripped (l : List Char) :
    stripChars (cleanLine l) = cleanLine l := by
  unfold cleanLine
  by_cases hm : isListMarker (stripChars l) = true
  · rw [if_pos hm]
    exact stripChars_idem l
  · rw [if_neg hm]
    exact stripChars_idem _

theorem mem_stripChars {l : List Char} {c : Char} (h : c ∈ stripChars l) : c ∈ l := by
  obtain ⟨w, w2, _, _, hl⟩ := exists_strip_decomp l
  rw [hl]
  simp [h]

theorem mem_collapseWS : ∀ {l : List Char} {c : Char}, c ∈ collapseWS l →
    c = ' ' ∨ c ∈ l := by
  intro l
  induction l with
  | nil => intro c h; simp [collapseWS] at h
  | cons a l' ih =>
    intro c h
    cases l' with
    | nil =>
      by_cases ha : isWS a = true
      · simp [collapseWS, ha] at h
        exact Or.inl h
      · simp [collapseWS, ha] at h
        simp [h]
    | cons d r =>
      unfold collapseWS at h
      by_cases ha : isWS a = true
      · rw [if_pos ha] at h
        by_cases hd : isWS d = true
        · rw [if_pos hd] at h
          rcases ih h with h1 | h1
          · exact Or.inl h1
          · exact Or.inr (List.mem_cons_of_mem _ h1)
        · rw [if_neg hd] at h
          rcases List.mem_cons.mp h with rfl | h1
          · exact Or.inl rfl
          · rcases ih h1 with h2 | h2
            · exact Or.inl h2
            · exact Or.inr (List.mem_cons_of_mem _ h2)
      · rw [if_neg ha] at h
        rcases List.mem_cons.mp h with rfl | h1
        · exact Or.inr (List.mem_cons_self ..)
        · rcases ih h1 with h2 | h2
          · exact Or.inl h2
          · exact Or.inr (List.mem_cons_of_mem _ h2)

theorem cleanLine_no_nl {l : List Char} (h : '\n' ∉ l) : '\n' ∉ cleanLine l := by
  unfold cleanLine
  by_cases hm : isListMarker (stripChars l) = true
  · rw [if_pos hm]
    intro hmem
    exact h (mem_stripChars hmem)
  · rw [if_neg hm]
    intro hmem
    rcases mem_collapseWS (mem_stripChars hmem) with h1 | h1
    · cases h1
    · exact h h1

theorem ne_nil_stripped_not_ws {z : List Char} (hz : z ≠ [])
    (hs : stripChars z = z) : wsOnly z = false := by
  obtain ⟨c, r, rfl⟩ := List.exists_cons_of_ne_nil hz
  rw [wsOnly_cons, not_ws_head_strip hs]
  rfl
/-! ### The normal form of clean_response -/

theorem joinNL_head? {m0 : List Char} (M : List (List Char)) (h : m0 ≠ []) :
    (joinNL (m0 :: M)).head? = m0.head? := by
  obtain ⟨a, as, rfl⟩ := List.exists_cons_of_ne_nil h
  cases M with
  | nil => rfl
  | cons x xs => rw [joinNL_cons (by simp)]; rfl

theorem joinNL_getLast? : ∀ (M : List (List Char)) (m : List Char),
    M.getLast? = some m → m ≠ [] → (joinNL M).getLast? = m.getLast? := by
  intro M
  induction M with
  | nil => intro m h; simp at h
  | cons m0 M' ih =>
    intro m hm hmne
    cases M' with
    | nil =>
      have : m0 = m := by simpa using hm
      subst this
      rfl
    | cons m1 M'' =>
      rw [List.getLast?_cons_cons] at hm
      have hrec := ih m hm hmne
      have hJne : joinNL (m1 :: M'') ≠ [] := by
        intro hx
        rw [hx] at hrec
        obtain ⟨c, hc⟩ := exists_getLast? hmne
        rw [hc] at hrec
        cases hrec
      rw [joinNL_cons (by simp)]
      rw [List.getLast?_append_of_ne_nil _ (by simp), getLast?_cons_ne_nil _ hJne, hrec]

/-- The normal form of a `clean_response` output on nonblank input: it is
the join of a list `M` of cleaned lines - each stripped and
newline-free, with no two adjacent blank lines and nonblank first and
last lines - and splitting it recovers exactly `M`. -/
theorem clean_normal_form (s : List Char) (hns : stripChars s ≠ []) :
    ∃ M : List (List Char),
      clean_response s = joinNL M ∧
      splitNL (clean_response s) = M ∧
      M = (collapseLines (splitNL (stripChars s))).map cleanLine ∧
      (∀ l ∈ M, '\n' ∉ l) ∧
      (∀ l ∈ M, stripChars l = l) ∧
      List.Chain' (fun a b : List Char => ¬(a = [] ∧ b = [])) M ∧
      (∀ hd, M.head? = some hd → hd ≠ []) ∧
      (∀ lst, M.getLast? = some lst → lst ≠ []) := by
  obtain ⟨c, v, hcv⟩ := List.exists_cons_of_ne_nil hns
  have hchead : isWS c = false := not_ws_head_strip hcv
  have hulast : ∀ cc, (stripChars s).getLast? = some cc → isWS cc = false := by
    intro cc hcc
    exact not_ws_last_strip hcc
  obtain ⟨hX0, tX, hXc⟩ := exists_splitNL_cons (stripChars s)
  have hXhead : wsOnly hX0 = false := by
    apply splitNL_head v hchead
    rw [← hcv, hXc]
    rfl
  have hXlast : ∀ lst, (splitNL (stripChars s)).getLast? = some lst →
      wsOnly lst = false :=
    fun lst hlst => splitNL_getLast (stripChars s) hns hulast lst hlst
  have hLcons : collapseLines (splitNL (stripChars s)) = hX0 :: collAux tX false := by
    rw [hXc, collapseLines_cons]
  have hLchain : List.Chain' (fun a b => ¬(wsOnly a = true ∧ wsOnly b = true))
      (collapseLines (splitNL (stripChars s))) := by
    rw [hLcons]
    cases htX : tX with
    | nil => exact List.chain'_singleton hX0
    | cons z zs =>
      have hlast' : ∀ lst, (z :: zs).getLast? = some lst → wsOnly lst = false := by
        intro lst hlst
        apply hXlast
        rw [hXc, htX, List.getLast?_cons_cons]
        exact hlst
      have props := collAux_props (z :: zs) (by simp) hlast' false
      refine List.chain'_cons'.mpr ⟨?_, props.2.2.1⟩
      intro y _
      rintro ⟨h1, _⟩
      rw [hXhead] at h1
      cases h1
  have hLlast : ∀ lst, (collapseLines (splitNL (stripChars s))).getLast? = some lst →
      wsOnly lst = false := by
    intro lst hlst
    rw [hLcons] at hlst
    cases htX : tX with
    | nil =>
      rw [htX] at hlst
      have h2 : hX0 = lst := by simpa [collAux_nil] using hlst
      subst h2
      exact hXhead
    | cons z zs =>
      have hlast' : ∀ l2, (z :: zs).getLast? = some l2 → wsOnly l2 = false := by
        intro l2 hl2
        apply hXlast
        rw [hXc, htX, List.getLast?_cons_cons]
        exact hl2
      have props := collAux_props (z :: zs) (by simp) hlast' false
      rw [htX] at hlst
      rw [getLast?_cons_ne_nil _ props.1, props.2.1] at hlst
      exact hlast' lst hlst
  have hLmem : ∀ l ∈ collapseLines (splitNL (stripChars s)), '\n' ∉ l :=
    collapseLines_no_nl
  -- facts about M := (collapseLines (splitNL (stripChars s))).map cleanLine
  have hMnl : ∀ l ∈ (collapseLines (splitNL (stripChars s))).map cleanLine,
      '\n' ∉ l := by
    intro l hl
    obtain ⟨x, hx, rfl⟩ := List.mem_map.mp hl
    exact cleanLine_no_nl (hLmem x hx)
  have hMstr : ∀ l ∈ (collapseLines (splitNL (stripChars s))).map cleanLine,
      stripChars l = l := by
    intro l hl
    obtain ⟨x, _, rfl⟩ := List.mem_map.mp hl
    exact cleanLine_stripped x
  have hMchain : List.Chain' (fun a b : List Char => ¬(a = [] ∧ b = []))
      ((collapseLines (splitNL (stripChars s))).map cleanLine) := by
    apply List.chain'_map_of_chain' cleanLine ?_ hLchain
    intro a b hab
    rintro ⟨ha, hb⟩
    exact hab ⟨cleanLine_eq_nil_iff.mp ha, cleanLine_eq_nil_iff.mp hb⟩
  have hMhead : ∀ hd, ((collapseLines (splitNL (stripChars s))).map cleanLine).head? =
      some hd → hd ≠ [] := by
    intro hd hhd
    rw [hLcons] at hhd
    have h2 : cleanLine hX0 = hd := by simpa using hhd
    subst h2
    intro hx
    rw [cleanLine_eq_nil_iff.mp hx] at hXhead
    cases hXhead
  have hMlast : ∀ lst, ((collapseLines (splitNL (stripChars s))).map cleanLine).getLast? =
      some lst → lst ≠ [] := by
    intro lst hlst
    rw [List.getLast?_map] at hlst
    obtain ⟨lL, hlL, hlL2⟩ : ∃ lL,
        (collapseLines (splitNL (stripChars s))).getLast? = some lL ∧
          cleanLine lL = lst := by
      cases hg : (collapseLines (splitNL (stripChars s))).getLast? with
      | none => rw [hg] at hlst; cases hlst
      | some z => rw [hg] at hlst; exact ⟨z, rfl, by simpa using hlst⟩
    have hwl := hLlast lL hlL
    intro hx
    rw [← hlL2] at hx
    rw [cleanLine_eq_nil_iff.mp hx] at hwl
    cases hwl
  have hMne : (collapseLines (splitNL (stripChars s))).map cleanLine ≠ [] := by
    rw [hLcons]
    simp
  -- the join is already stripped
  have hout : clean_response s =
      joinNL ((collapseLines (splitNL (stripChars s))).map cleanLine) := by
    rw [clean_response_eq]
    apply strip_eq_self
    · intro cc r hccr
      have hm0 : cleanLine hX0 ≠ [] := by
        intro hx
        rw [cleanLine_eq_nil_iff.mp hx] at hXhead
        cases hXhead
      have hhd : (joinNL ((collapseLines (splitNL (stripChars s))).map cleanLine)).head? =
          (cleanLine hX0).head? := by
        rw [hLcons]
        exact joinNL_head? _ hm0
      rw [hccr] at hhd
      obtain ⟨c0, r0, hc0⟩ := List.exists_cons_of_ne_nil hm0
      rw [hc0] at hhd
      have h3 : cc = c0 := by simpa using hhd
      subst h3
      have hstr0 : stripChars (cleanLine hX0) = cleanLine hX0 := cleanLine_stripped hX0
      rw [hc0] at hstr0
      exact not_ws_head_strip hstr0
    · intro cc hcc
      obtain ⟨lst, hlst⟩ :=
        exists_getLast? (l := (collapseLines (splitNL (stripChars s))).map cleanLine) hMne
      have hlstne : lst ≠ [] := hMlast lst hlst
      rw [joinNL_getLast? _ lst hlst hlstne] at hcc
      obtain ⟨x, hx, hx2⟩ : ∃ x, x ∈ collapseLines (splitNL (stripChars s)) ∧
          cleanLine x = lst := by
        rw [List.getLast?_map] at hlst
        cases hg : (collapseLines (splitNL (stripChars s))).getLast? with
        | none => rw [hg] at hlst; cases hlst
        | some z =>
          rw [hg] at hlst
          exact ⟨z, mem_of_getLast?_eq hg, by simpa using hlst⟩
      have hstrl : stripChars lst = lst := by
        rw [← hx2]
        exact cleanLine_stripped x
      apply not_ws_last_strip (l := lst)
      rw [hstrl]
      exact hcc
  have hsplit : splitNL (clean_response s) =
      (collapseLines (splitNL (stripChars s))).map cleanLine := by
    rw [hout]
    exact split_join _ hMnl hMne
  exact ⟨(collapseLines (splitNL (stripChars s))).map cleanLine,
    hout, hsplit, rfl, hMnl, hMstr, hMchain, hMhead, hMlast⟩
/-! ### No runs of blank lines in the output -/

theorem clean_response_of_ws {s : List Char} (h : stripChars s = []) :
    clean_response s = [] := by
  rw [clean_response_eq, h]
  decide

theorem joinNL_not_nn : ∀ (M : List (List Char)), (∀ l ∈ M, '\n' ∉ l) →
    List.Chain' (fun a b : List Char => ¬(a = [] ∧ b = [])) M →
    ∀ b : List Char, joinNL M ≠ '\n' :: '\n' :: b := by
  intro M hno hch b heq
  cases M with
  | nil => cases heq
  | cons l M' =>
    cases M' with
    | nil =>
      apply hno l (List.mem_cons_self ..)
      rw [show joinNL [l] = l from rfl] at heq
      rw [heq]
      simp
    | cons l2 M'' =>
      rw [joinNL_cons (by simp)] at heq
      cases l with
      | cons c l' =>
        rw [List.cons_append] at heq
        injection heq with h1 _
        apply hno (c :: l') (List.mem_cons_self ..)
        rw [h1]
        exact List.mem_cons_self ..
      | nil =>
        rw [List.nil_append] at heq
        injection heq with _ h2
        cases l2 with
        | cons c2 l2' =>
          have hc2 : c2 = '\n' := by
            cases M'' with
            | nil =>
              rw [show joinNL [c2 :: l2'] = c2 :: l2' from rfl] at h2
              exact List.head_eq_of_cons_eq h2
            | cons l3 M''' =>
              rw [joinNL_cons (by simp), List.cons_append] at h2
              exact List.head_eq_of_cons_eq h2
          apply hno (c2 :: l2') (List.mem_cons_of_mem _ (List.mem_cons_self ..))
          rw [hc2]
          exact List.mem_cons_self ..
        | nil =>
          exact (List.chain'_cons.mp hch).1 ⟨rfl, rfl⟩

theorem drop_append_ge {α : Type} : ∀ (l z : List α) (n : ℕ), l.length ≤ n →
    (l ++ z).drop n = z.drop (n - l.length) := by
  intro l
  induction l with
  | nil => intro z n _; simp
  | cons x xs ih =>
    intro z n hn
    cases n with
    | zero => simp at hn
    | succ m =>
      have hidx : m + 1 - (x :: xs).length = m - xs.length := by
        simp only [List.length_cons]
        omega
      rw [List.cons_append, List.drop_succ_cons, ih z m (by simpa using hn), hidx]

theorem joinNL_no_triple : ∀ (M : List (List Char)), (∀ l ∈ M, '\n' ∉ l) →
    List.Chain' (fun a b : List Char => ¬(a = [] ∧ b = [])) M →
    ∀ a b : List Char, joinNL M ≠ a ++ '\n' :: '\n' :: '\n' :: b := by
  intro M
  induction M with
  | nil =>
    intro _ _ a b heq
    simp [joinNL] at heq
  | cons l M' ih =>
    intro hno hch a b heq
    have hno' : ∀ x ∈ M', '\n' ∉ x := fun x hx => hno x (List.mem_cons_of_mem _ hx)
    cases M' with
    | nil =>
      apply hno l (List.mem_cons_self ..)
      rw [show joinNL [l] = l from rfl] at heq
      rw [heq]
      simp
    | cons l2 M'' =>
      have hch' : List.Chain' (fun a b : List Char => ¬(a = [] ∧ b = [])) (l2 :: M'') :=
        hch.tail
      rw [joinNL_cons (by simp)] at heq
      by_cases hle : a.length ≤ l.length
      · have hdrop := congrArg (List.drop a.length) heq
        rw [List.drop_append_of_le_length hle, List.drop_left] at hdrop
        cases hld : l.drop a.length with
        | nil =>
          rw [hld, List.nil_append] at hdrop
          injection hdrop with _ h2
          exact joinNL_not_nn (l2 :: M'') hno' hch' b h2
        | cons cD rD =>
          rw [hld, List.cons_append] at hdrop
          injection hdrop with h1 _
          apply hno l (List.mem_cons_self ..)
          rw [← h1]
          exact List.drop_subset _ _ (by rw [hld]; exact List.mem_cons_self ..)
      · push_neg at hle
        have hdrop := congrArg (List.drop a.length) heq
        rw [List.drop_left] at hdrop
        have hk : a.length - l.length = (a.length - l.length - 1) + 1 := by omega
        have hL : (l ++ '\n' :: joinNL (l2 :: M'')).drop a.length =
            (joinNL (l2 :: M'')).drop (a.length - l.length - 1) := by
          rw [drop_append_ge _ _ _ (Nat.le_of_lt hle), hk, List.drop_succ_cons]
          congr 1
        rw [hL] at hdrop
        apply ih hno' hch' ((joinNL (l2 :: M'')).take (a.length - l.length - 1)) b
        conv_lhs => rw [← List.take_append_drop (a.length - l.length - 1)
          (joinNL (l2 :: M''))]
        rw [hdrop]

/-- C2: the output of `clean_response` never contains a run of more than
one blank line: among its newline-separated lines no two adjacent lines
are empty, and as a string it never contains three consecutive
newlines. -/
theorem c2_no_blank_line_runs (s : List Char) :
    List.Chain' (fun a b : List Char => ¬(a = [] ∧ b = []))
      (splitNL (clean_response s)) ∧
    ∀ a b : List Char, clean_response s ≠ a ++ '\n' :: '\n' :: '\n' :: b := by
  by_cases hns : stripChars s = []
  · rw [clean_response_of_ws hns]
    constructor
    · have h0 : splitNL ([] : List Char) = [[]] := rfl
      rw [h0]
      exact List.chain'_singleton _
    · intro a b heq
      simp at heq
  · obtain ⟨M, hjoin, hsplit, _, hMnl, _, hMchain, _, _⟩ := clean_normal_form s hns
    refine ⟨?_, ?_⟩
    · rw [hsplit]
      exact hMchain
    · rw [hjoin]
      exact joinNL_no_triple M hMnl hMchain

/-! ### collapseWS: heads, tails, appends and idempotence -/

theorem collapseWS_ne_nil : ∀ {l : List Char}, l ≠ [] → collapseWS l ≠ [] := by
  intro l
  induction l with
  | nil => intro h; exact absurd rfl h
  | cons c l' ih =>
    intro _
    cases l' with
    | nil =>
      by_cases hc : isWS c = true
      · rw [collapseWS_single_ws hc]; simp
      · rw [collapseWS_single_not (by simpa using hc)]; simp
    | cons d r =>
      by_cases hc : isWS c = true
      · by_cases hd : isWS d = true
        · rw [collapseWS_cons₂_ww r hc hd]; exact ih (by simp)
        · rw [collapseWS_cons₂_wn r hc (by simpa using hd)]; simp
      · rw [collapseWS_cons₂_n d r (by simpa using hc)]; simp

theorem collapseWS_ws_only : ∀ {w : List Char}, wsOnly w = true → w ≠ [] →
    collapseWS w = [' '] := by
  intro w
  induction w with
  | nil => intro _ h; exact absurd rfl h
  | cons c w' ih =>
    intro hw _
    rw [wsOnly_cons, Bool.and_eq_true] at hw
    cases w' with
    | nil => exact collapseWS_single_ws hw.1
    | cons d r =>
      have hd : isWS d = true := by
        rw [wsOnly_cons, Bool.and_eq_true] at hw
        exact hw.2.1
      rw [collapseWS_cons₂_ww r hw.1 hd]
      exact ih hw.2 (by simp)

theorem head?_collapseWS_ws : ∀ (r : List Char) {d : Char}, isWS d = true →
    (collapseWS (d :: r)).head? = some ' ' := by
  intro r
  induction r with
  | nil => intro d hd; rw [collapseWS_single_ws hd]; rfl
  | cons e r2 ih =>
    intro d hd
    by_cases he : isWS e = true
    · rw [collapseWS_cons₂_ww r2 hd he]
      exact ih he
    · rw [collapseWS_cons₂_wn r2 hd (by simpa using he)]
      rfl

theorem head?_collapseWS_not {c : Char} (r : List Char) (hc : isWS c = false) :
    (collapseWS (c :: r)).head? = some c := by
  cases r with
  | nil => rw [collapseWS_single_not hc]; rfl
  | cons d r2 => rw [collapseWS_cons₂_n d r2 hc]; rfl

theorem getLast?_collapseWS : ∀ {l : List Char} {c : Char}, isWS c = false →
    l.getLast? = some c → (collapseWS l).getLast? = some c := by
  intro l
  induction l with
  | nil => intro c _ h; cases h
  | cons a l' ih =>
    intro c hcw hl
    cases l' with
    | nil =>
      have hac : a = c := by simpa using hl
      subst hac
      rw [collapseWS_single_not hcw]
      rfl
    | cons d r =>
      rw [List.getLast?_cons_cons] at hl
      have hrec := ih hcw hl
      have hne : collapseWS (d :: r) ≠ [] := collapseWS_ne_nil (by simp)
      by_cases ha : isWS a = true
      · by_cases hd : isWS d = true
        · rw [collapseWS_cons₂_ww r ha hd]
          exact hrec
        · rw [collapseWS_cons₂_wn r ha (by simpa using hd),
            getLast?_cons_ne_nil _ hne]
          exact hrec
      · rw [collapseWS_cons₂_n d r (by simpa using ha), getLast?_cons_ne_nil _ hne]
        exact hrec

theorem collapseWS_ws_cons : ∀ {w : List Char}, wsOnly w = true → w ≠ [] →
    ∀ {c : Char} (r : List Char), isWS c = false →
    collapseWS (w ++ c :: r) = ' ' :: collapseWS (c :: r) := by
  intro w
  induction w with
  | nil => intro _ h; exact absurd rfl h
  | cons c0 w' ih =>
    intro hw _ c r hc
    rw [wsOnly_cons, Bool.and_eq_true] at hw
    cases w' with
    | nil =>
      rw [List.cons_append, List.nil_append]
      exact collapseWS_cons₂_wn r hw.1 hc
    | cons c1 w'' =>
      have hc1 : isWS c1 = true := by
        rw [wsOnly_cons, Bool.and_eq_true] at hw
        exact hw.2.1
      rw [List.cons_append, List.cons_append, collapseWS_cons₂_ww _ hw.1 hc1]
      rw [← List.cons_append]
      exact ih hw.2 (by simp) r hc

theorem collapseWS_append_ws : ∀ (t : List Char) {c : Char}, t.getLast? = some c →
    isWS c = false → ∀ {w : List Char}, wsOnly w = true → w ≠ [] →
    collapseWS (t ++ w) = collapseWS t ++ [' '] := by
  intro t
  induction t with
  | nil => intro c h; cases h
  | cons a t' ih =>
    intro c hl hcw w hw hwne
    obtain ⟨b, w2, rfl⟩ := List.exists_cons_of_ne_nil hwne
    cases t' with
    | nil =>
      have hac : a = c := by simpa using hl
      subst hac
      rw [List.cons_append, List.nil_append, collapseWS_single_not hcw]
      have hb : isWS b = true := by
        rw [wsOnly_cons, Bool.and_eq_true] at hw
        exact hw.1
      rw [collapseWS_cons₂_n b w2 hcw, collapseWS_ws_only hw (by simp)]
      rfl
    | cons d t2 =>
      rw [List.getLast?_cons_cons] at hl
      have hrec := ih hl hcw hw hwne
      rw [List.cons_append, List.cons_append]
      by_cases ha : isWS a = true
      · by_cases hd : isWS d = true
        · rw [collapseWS_cons₂_ww _ ha hd, collapseWS_cons₂_ww t2 ha hd,
            ← List.cons_append]
          exact hrec
        · have hd' : isWS d = false := by simpa using hd
          rw [collapseWS_cons₂_wn _ ha hd', collapseWS_cons₂_wn t2 ha hd',
            ← List.cons_append, hrec]
          rfl
      · have ha' : isWS a = false := by simpa using ha
        rw [collapseWS_cons₂_n _ _ ha', collapseWS_cons₂_n d t2 ha',
          ← List.cons_append, hrec]
        rfl

theorem strip_collapseWS_comm : ∀ {l : List Char}, wsOnly l = false →
    stripChars (collapseWS l) = collapseWS (stripChars l) := by
  intro l hws
  obtain ⟨w, w2, hw, hw2, hl⟩ := exists_strip_decomp l
  obtain ⟨m, hm⟩ : ∃ m, stripChars l = m := ⟨_, rfl⟩
  rw [hm] at hl
  rw [hm]
  have hmne : m ≠ [] := by
    intro hx
    subst hx
    have := stripChars_eq_nil_iff.mp hm
    rw [this] at hws
    cases hws
  obtain ⟨cm, rm, hcm⟩ := List.exists_cons_of_ne_nil hmne
  have hcmws : isWS cm = false := not_ws_head_strip (hm.trans hcm)
  obtain ⟨ce, hce⟩ := exists_getLast? hmne
  have hcews : isWS ce = false := by
    apply not_ws_last_strip (l := l)
    rw [hm]
    exact hce
  have hsm : stripChars (collapseWS m) = collapseWS m := by
    apply strip_eq_self
    · intro cc r hccr
      have hh := head?_collapseWS_not rm hcmws
      rw [← hcm, hccr] at hh
      have h2 : cc = cm := by simpa using hh
      rw [h2]
      exact hcmws
    · intro cc hcc
      have hh := getLast?_collapseWS hcews hce
      rw [hcc] at hh
      have h2 : cc = ce := by simpa using hh
      rw [h2]
      exact hcews
  rw [hl]
  cases hw2e : w2 with
  | nil =>
    subst hw2e
    rw [List.append_nil]
    cases hwe : w with
    | nil =>
      subst hwe
      rw [List.nil_append]
      exact hsm
    | cons b w' =>
      subst hwe
      rw [hcm, collapseWS_ws_cons hw (by simp) rm hcmws, ← hcm,
        stripChars_cons_ws _ (by decide)]
      exact hsm
  | cons b2 w2' =>
    subst hw2e
    have hMW : collapseWS (m ++ b2 :: w2') = collapseWS m ++ [' '] :=
      collapseWS_append_ws m hce hcews hw2 (by simp)
    cases hwe : w with
    | nil =>
      subst hwe
      rw [List.nil_append, hMW, stripChars_append_ws _ (by decide)]
      exact hsm
    | cons b w' =>
      subst hwe
      rw [List.append_assoc, hcm, List.cons_append cm rm (b2 :: w2'),
        collapseWS_ws_cons hw (by simp) (rm ++ b2 :: w2') hcmws,
        ← List.cons_append cm rm (b2 :: w2'), ← hcm, hMW,
        stripChars_cons_ws _ (by decide), stripChars_append_ws _ (by decide)]
      exact hsm

theorem chain'_collapseWS : ∀ l : List Char,
    List.Chain' (fun a b => ¬(isWS a = true ∧ isWS b = true)) (collapseWS l) := by
  intro l
  induction l with
  | nil => simp [collapseWS]
  | cons c l' ih =>
    cases l' with
    | nil =>
      by_cases hc : isWS c = true
      · rw [collapseWS_single_ws hc]
        exact List.chain'_singleton _
      · rw [collapseWS_single_not (by simpa using hc)]
        exact List.chain'_singleton _
    | cons d r =>
      by_cases hc : isWS c = true
      · by_cases hd : isWS d = true
        · rw [collapseWS_cons₂_ww r hc hd]
          exact ih
        · have hd' : isWS d = false := by simpa using hd
          rw [collapseWS_cons₂_wn r hc hd']
          refine List.chain'_cons'.mpr ⟨?_, ih⟩
          intro y hy
          have hh := head?_collapseWS_not r hd'
          rw [hh] at hy
          have h2 : d = y := by simpa using hy
          subst h2
          rintro ⟨_, h3⟩
          rw [hd'] at h3
          cases h3
      · have hc' : isWS c = false := by simpa using hc
        rw [collapseWS_cons₂_n d r hc']
        refine List.chain'_cons'.mpr ⟨?_, ih⟩
        intro y _
        rintro ⟨h1, _⟩
        rw [hc'] at h1
        cases h1

theorem mem_ws_collapseWS : ∀ {l : List Char} {c : Char}, c ∈ collapseWS l →
    isWS c = true → c = ' ' := by
  intro l
  induction l with
  | nil => intro c h; simp [collapseWS] at h
  | cons a l' ih =>
    intro c hmem hws
    cases l' with
    | nil =>
      by_cases ha : isWS a = true
      · rw [collapseWS_single_ws ha] at hmem
        simpa using hmem
      · rw [collapseWS_single_not (by simpa using ha)] at hmem
        have h2 : c = a := by simpa using hmem
        subst h2
        rw [hws] at ha
        exact absurd rfl ha
    | cons d r =>
      by_cases ha : isWS a = true
      · by_cases hd : isWS d = true
        · rw [collapseWS_cons₂_ww r ha hd] at hmem
          exact ih hmem hws
        · rw [collapseWS_cons₂_wn r ha (by simpa using hd)] at hmem
          rcases List.mem_cons.mp hmem with h1 | h1
          · exact h1
          · exact ih h1 hws
      · rw [collapseWS_cons₂_n d r (by simpa using ha)] at hmem
        rcases List.mem_cons.mp hmem with h1 | h1
        · subst h1
          rw [hws] at ha
          exact absurd rfl ha
        · exact ih h1 hws

theorem collapseWS_fixed : ∀ (x : List Char),
    List.Chain' (fun a b => ¬(isWS a = true ∧ isWS b = true)) x →
    (∀ c ∈ x, isWS c = true → c = ' ') → collapseWS x = x := by
  intro x
  induction x with
  | nil => intro _ _; rfl
  | cons c x' ih =>
    intro hch hmem
    cases x' with
    | nil =>
      by_cases hc : isWS c = true
      · rw [collapseWS_single_ws hc, hmem c (List.mem_cons_self ..) hc]
      · rw [collapseWS_single_not (by simpa using hc)]
    | cons d r =>
      have hch2 := (List.chain'_cons.mp hch).2
      have hrel := (List.chain'_cons.mp hch).1
      have hmem2 : ∀ a ∈ d :: r, isWS a = true → a = ' ' :=
        fun a ha => hmem a (List.mem_cons_of_mem _ ha)
      by_cases hc : isWS c = true
      · have hd : isWS d = false := by
          cases hdb : isWS d
          · rfl
          · exact absurd ⟨hc, hdb⟩ hrel
        rw [collapseWS_cons₂_wn r hc hd, ih hch2 hmem2,
          hmem c (List.mem_cons_self ..) hc]
      · rw [collapseWS_cons₂_n d r (by simpa using hc), ih hch2 hmem2]

theorem collapseWS_idem (l : List Char) : collapseWS (collapseWS l) = collapseWS l :=
  collapseWS_fixed (collapseWS l) (chain'_collapseWS l)
    (fun _ hc hws => mem_ws_collapseWS hc hws)

/-! ### The list markers survive whitespace collapsing -/

theorem beginsWith_pair_collapse {a b : Char} (hb : isWS b = false) {c : Char}
    (r : List Char) (hc : isWS c = false) :
    beginsWith [a, b] (collapseWS (c :: r)) = beginsWith [a, b] (c :: r) := by
  cases r with
  | nil => rw [collapseWS_single_not hc]
  | cons d r2 =>
    rw [collapseWS_cons₂_n d r2 hc]
    show ((a == c) && beginsWith [b] (collapseWS (d :: r2))) =
      ((a == c) && beginsWith [b] (d :: r2))
    by_cases hd : isWS d = true
    · obtain ⟨X', hX'⟩ : ∃ X', collapseWS (d :: r2) = ' ' :: X' := by
        have hh := head?_collapseWS_ws r2 hd
        cases hcw : collapseWS (d :: r2) with
        | nil => rw [hcw] at hh; cases hh
        | cons x xs =>
          rw [hcw] at hh
          have h2 : x = ' ' := by simpa using hh
          subst h2
          exact ⟨xs, rfl⟩
      rw [hX']
      show ((a == c) && ((b == ' ') && true)) = ((a == c) && ((b == d) && true))
      have hb1 : (b == ' ') = false := by
        simp only [beq_eq_false_iff_ne]
        intro hx
        rw [hx] at hb
        simp [isWS] at hb
      have hb2 : (b == d) = false := by
        simp only [beq_eq_false_iff_ne]
        intro hx
        rw [hx] at hb
        rw [hb] at hd
        cases hd
      rw [hb1, hb2]
    · have hd' : isWS d = false := by simpa using hd
      obtain ⟨X', hX'⟩ : ∃ X', collapseWS (d :: r2) = d :: X' := by
        have hh := head?_collapseWS_not r2 hd'
        cases hcw : collapseWS (d :: r2) with
        | nil => rw [hcw] at hh; cases hh
        | cons x xs =>
          rw [hcw] at hh
          have h2 : x = d := by simpa using hh
          subst h2
          exact ⟨xs, rfl⟩
      rw [hX']
      rfl

theorem beginsWith_single_collapse (x : Char) {c : Char} (r : List Char)
    (hc : isWS c = false) :
    beginsWith [x] (collapseWS (c :: r)) = beginsWith [x] (c :: r) := by
  cases r with
  | nil => rw [collapseWS_single_not hc]
  | cons d r2 =>
    rw [collapseWS_cons₂_n d r2 hc]
    rfl

theorem isListMarker_collapseWS {c : Char} (r : List Char) (hc : isWS c = false) :
    isListMarker (collapseWS (c :: r)) = isListMarker (c :: r) := by
  unfold isListMarker
  rw [beginsWith_pair_collapse (by decide) r hc, beginsWith_pair_collapse (by decide) r hc,
    beginsWith_pair_collapse (by decide) r hc, beginsWith_pair_collapse (by decide) r hc,
    beginsWith_single_collapse _ r hc]

theorem marker_strip_collapse (l : List Char) :
    isListMarker (stripChars (collapseWS l)) = isListMarker (stripChars l) := by
  by_cases hws : wsOnly l = true
  · have h1 : stripChars l = [] := stripChars_eq_nil_iff.mpr hws
    have h2 : stripChars (collapseWS l) = [] := by
      apply stripChars_eq_nil_iff.mpr
      rw [wsOnly_collapseWS]
      exact hws
    rw [h1, h2]
  · have hws' : wsOnly l = false := by simpa using hws
    rw [strip_collapseWS_comm hws']
    have hmne : stripChars l ≠ [] := by
      intro hx
      have := stripChars_eq_nil_iff.mp hx
      rw [this] at hws'
      cases hws'
    obtain ⟨cm, rm, hcm⟩ := List.exists_cons_of_ne_nil hmne
    rw [hcm]
    exact isListMarker_collapseWS rm (not_ws_head_strip hcm)

/-! ### cleanLine is idempotent -/

theorem cleanLine_idem (l : List Char) : cleanLine (cleanLine l) = cleanLine l := by
  by_cases hm : isListMarker (stripChars l) = true
  · have h1 : cleanLine l = stripChars l := by
      unfold cleanLine
      rw [if_pos hm]
    rw [h1]
    unfold cleanLine
    rw [stripChars_idem, if_pos hm]
  · have hm' : isListMarker (stripChars l) = false := by simpa using hm
    have h1 : cleanLine l = stripChars (collapseWS l) := by
      unfold cleanLine
      rw [if_neg hm]
    rw [h1]
    unfold cleanLine
    rw [stripChars_idem, marker_strip_collapse, hm']
    rw [if_neg (by simp)]
    by_cases hws : wsOnly l = true
    · have h2 : stripChars (collapseWS l) = [] := by
        apply stripChars_eq_nil_iff.mpr
        rw [wsOnly_collapseWS]
        exact hws
      rw [h2]
      decide
    · have hws' : wsOnly l = false := by simpa using hws
      have hsne : stripChars l ≠ [] := by
        intro hx
        have := stripChars_eq_nil_iff.mp hx
        rw [this] at hws'
        cases hws'
      have hws2 : wsOnly (stripChars l) = false :=
        ne_nil_stripped_not_ws hsne (stripChars_idem l)
      rw [strip_collapseWS_comm hws', collapseWS_idem,
        strip_collapseWS_comm hws2, stripChars_idem]

/-! ### C1: idempotence of clean_response -/

theorem collAux_fixed : ∀ (X : List (List Char)),
    (∀ l ∈ X, l = [] ∨ wsOnly l = false) →
    List.Chain' (fun a b : List Char => ¬(a = [] ∧ b = [])) X →
    collAux X false = X ∧
      ((∀ hd, X.head? = some hd → hd ≠ []) → collAux X true = X) := by
  intro X
  induction X with
  | nil => intro _ _; exact ⟨rfl, fun _ => rfl⟩
  | cons x xs ih =>
    intro hentry hch
    cases xs with
    | nil => exact ⟨collAux_singleton x false, fun _ => collAux_singleton x true⟩
    | cons y ys =>
      have hentry' : ∀ l ∈ y :: ys, l = [] ∨ wsOnly l = false :=
        fun l hl => hentry l (List.mem_cons_of_mem _ hl)
      have hch' := (List.chain'_cons.mp hch).2
      have hrel := (List.chain'_cons.mp hch).1
      have ihr := ih hentry' hch'
      rcases hentry x (List.mem_cons_self ..) with rfl | hws
      · have hyne : y ≠ [] := fun hy => hrel ⟨rfl, hy⟩
        have htrue : collAux (y :: ys) true = y :: ys := by
          apply ihr.2
          intro hd hhd
          have h2 : y = hd := by simpa using hhd
          subst h2
          exact hyne
        constructor
        · rw [collAux_cons_cons, if_pos wsOnly_nil, if_neg (by simp), htrue]
        · intro hcond
          exact absurd rfl (hcond [] rfl)
      · constructor
        · rw [collAux_cons_cons, if_neg (by simp [hws]), ihr.1]
        · intro _
          rw [collAux_cons_cons, if_neg (by simp [hws]), ihr.1]

/-- C1: `clean_response` is idempotent - applying it twice gives the
same result as applying it once. -/
theorem c1_clean_response_idempotent (s : List Char) :
    clean_response (clean_response s) = clean_response s := by
  by_cases hns : stripChars s = []
  · rw [clean_response_of_ws hns]
    decide
  · obtain ⟨M, hjoin, hsplit, hMdef, hMnl, hMstr, hMchain, hMhead, hMlast⟩ :=
      clean_normal_form s hns
    have houtstr : stripChars (clean_response s) = clean_response s := by
      rw [clean_response_eq s]
      exact stripChars_idem _
    rw [clean_response_eq (clean_response s), houtstr, hsplit]
    have hMentry : ∀ l ∈ M, l = [] ∨ wsOnly l = false := by
      intro l hl
      by_cases hle : l = []
      · exact Or.inl hle
      · exact Or.inr (ne_nil_stripped_not_ws hle (hMstr l hl))
    have hcoll : collapseLines M = M := by
      cases hM : M with
      | nil => rfl
      | cons m0 M' =>
        rw [collapseLines_cons]
        have hfix := collAux_fixed M'
          (fun l hl => hMentry l (by rw [hM]; exact List.mem_cons_of_mem _ hl))
          (by rw [hM] at hMchain; exact (List.chain'_cons'.mp hMchain).2)
        rw [hfix.1]
    rw [hcoll]
    have hmapM : M.map cleanLine = M := by
      conv_lhs => rw [hMdef]
      rw [List.map_map]
      rw [show (cleanLine ∘ cleanLine) = fun l => cleanLine (cleanLine l) from rfl]
      calc (collapseLines (splitNL (stripChars s))).map (fun l => cleanLine (cleanLine l)) =
          (collapseLines (splitNL (stripChars s))).map cleanLine :=
            List.map_congr_left fun a _ => cleanLine_idem a
        _ = M := hMdef.symm
    rw [hmapM, ← hjoin]
    exact houtstr

/-! ### Per-line treatment: which lines survive and how they are cleaned -/

theorem cleanLine_cons_ws {c : Char} (h : List Char) (hc : isWS c = true) :
    cleanLine (c :: h) = cleanLine h := by
  unfold cleanLine
  rw [stripChars_cons_ws h hc]
  by_cases hm : isListMarker (stripChars h) = true
  · rw [if_pos hm, if_pos hm]
  · rw [if_neg hm, if_neg hm]
    by_cases hws : wsOnly h = true
    · have h1 : wsOnly (c :: h) = true := by rw [wsOnly_cons, hc, Bool.true_and, hws]
      rw [stripChars_eq_nil_iff.mpr (by rw [wsOnly_collapseWS]; exact h1),
        stripChars_eq_nil_iff.mpr (by rw [wsOnly_collapseWS]; exact hws)]
    · have hws2 : wsOnly h = false := by simpa using hws
      have h1 : wsOnly (c :: h) = false := by rw [wsOnly_cons, hws2]; simp
      rw [strip_collapseWS_comm h1, strip_collapseWS_comm hws2, stripChars_cons_ws h hc]

theorem cleanLine_append_ws {c : Char} (h : List Char) (hc : isWS c = true) :
    cleanLine (h ++ [c]) = cleanLine h := by
  have hwc : wsOnly [c] = true := by rw [wsOnly_cons, hc, Bool.true_and, wsOnly_nil]
  unfold cleanLine
  rw [stripChars_append_ws h hwc]
  by_cases hm : isListMarker (stripChars h) = true
  · rw [if_pos hm, if_pos hm]
  · rw [if_neg hm, if_neg hm]
    by_cases hws : wsOnly h = true
    · have h1 : wsOnly (h ++ [c]) = true := by rw [wsOnly_append, hws, Bool.true_and, hwc]
      rw [stripChars_eq_nil_iff.mpr (by rw [wsOnly_collapseWS]; exact h1),
        stripChars_eq_nil_iff.mpr (by rw [wsOnly_collapseWS]; exact hws)]
    · have hws2 : wsOnly h = false := by simpa using hws
      have h1 : wsOnly (h ++ [c]) = false := by rw [wsOnly_append, hws2]; rfl
      rw [strip_collapseWS_comm h1, strip_collapseWS_comm hws2, stripChars_append_ws h hwc]

theorem filter_map_cleanLine : ∀ L : List (List Char),
    ((L.map cleanLine).filter (fun l => !l.isEmpty)) =
      (L.filter (fun l => !(wsOnly l))).map cleanLine := by
  intro L
  induction L with
  | nil => rfl
  | cons a L2 ih =>
    rw [List.map_cons, List.filter_cons, List.filter_cons]
    by_cases hws : wsOnly a = true
    · have hca : cleanLine a = [] := cleanLine_eq_nil_iff.mpr hws
      simp [hca, hws, ih]
    · have hws2 : wsOnly a = false := by simpa using hws
      have hca : cleanLine a ≠ [] := fun hx => by
        rw [cleanLine_eq_nil_iff, hws2] at hx
        exact Bool.false_ne_true hx
      simp [hws2, ih, List.isEmpty_iff, hca]

theorem filter_collAux : ∀ (X : List (List Char)) (mode : Bool),
    ((collAux X mode).filter (fun l => !(wsOnly l))) =
      X.filter (fun l => !(wsOnly l)) := by
  intro X
  induction X with
  | nil => intro _; rfl
  | cons x xs ih =>
    intro mode
    cases xs with
    | nil => rw [collAux_singleton]
    | cons y ys =>
      rw [collAux_cons_cons]
      by_cases hws : wsOnly x = true
      · rw [if_pos hws]
        have hr : List.filter (fun l => !(wsOnly l)) (x :: y :: ys) =
            List.filter (fun l => !(wsOnly l)) (y :: ys) := by
          rw [List.filter_cons, if_neg (by simp [hws])]
        cases mode with
        | true =>
          rw [if_pos rfl, ih true, hr]
        | false =>
          rw [if_neg (by simp), List.filter_cons, if_neg (by simp [wsOnly_nil]),
            ih true, hr]
      · have hws2 : wsOnly x = false := by simpa using hws
        rw [if_neg hws, List.filter_cons, List.filter_cons,
          if_pos (by simp [hws2]), if_pos (by simp [hws2]), ih false]

theorem filter_collapseLines (X : List (List Char)) :
    ((collapseLines X).filter (fun l => !(wsOnly l))) =
      X.filter (fun l => !(wsOnly l)) := by
  cases X with
  | nil => rfl
  | cons x xs =>
    rw [collapseLines_cons, List.filter_cons, List.filter_cons, filter_collAux]

theorem wsOnly_lines : ∀ {s : List Char}, wsOnly s = true →
    ∀ l ∈ splitNL s, wsOnly l = true := by
  intro s
  induction s with
  | nil =>
    intro _ l hl
    have hln : l = [] := by simpa [splitNL] using hl
    subst hln
    exact wsOnly_nil
  | cons c s2 ih =>
    intro hws l hl
    rw [wsOnly_cons, Bool.and_eq_true] at hws
    by_cases hc : c = '\n'
    · subst hc
      rw [splitNL_cons_nl] at hl
      rcases List.mem_cons.mp hl with rfl | hl2
      · exact wsOnly_nil
      · exact ih hws.2 l hl2
    · obtain ⟨h, t, hv⟩ := exists_splitNL_cons s2
      rw [splitNL_cons_of_ne hc hv] at hl
      rcases List.mem_cons.mp hl with rfl | hl2
      · rw [wsOnly_cons, hws.1, Bool.true_and,
          ih hws.2 h (by rw [hv]; exact List.mem_cons_self ..)]
      · exact ih hws.2 l (by rw [hv]; exact List.mem_cons_of_mem _ hl2)

theorem cleanVisible_ws_cons {c : Char} (x : List Char) (hc : isWS c = true) :
    cleanVisibleLines (c :: x) = cleanVisibleLines x := by
  by_cases hcn : c = '\n'
  · subst hcn
    unfold cleanVisibleLines
    rw [splitNL_cons_nl, List.filter_cons, if_neg (by simp [wsOnly_nil])]
  · obtain ⟨h, t, hv⟩ := exists_splitNL_cons x
    unfold cleanVisibleLines
    rw [splitNL_cons_of_ne hcn hv, hv, List.filter_cons, List.filter_cons]
    have hwc : wsOnly (c :: h) = wsOnly h := by rw [wsOnly_cons, hc]; rfl
    by_cases hwsh : wsOnly h = true
    · rw [if_neg (by simp [hwc, hwsh]), if_neg (by simp [hwsh])]
    · have hwsh2 : wsOnly h = false := by simpa using hwsh
      rw [if_pos (by simp [hwc, hwsh2]), if_pos (by simp [hwsh2]),
        List.map_cons, List.map_cons, cleanLine_cons_ws h hc]

theorem cleanVisible_ws_prepend : ∀ (w : List Char), wsOnly w = true →
    ∀ x, cleanVisibleLines (w ++ x) = cleanVisibleLines x := by
  intro w
  induction w with
  | nil => intro _ x; rfl
  | cons c w2 ih =>
    intro hw x
    rw [wsOnly_cons, Bool.and_eq_true] at hw
    rw [List.cons_append, cleanVisible_ws_cons _ hw.1, ih hw.2 x]

theorem splitNL_append_nl : ∀ t : List Char,
    splitNL (t ++ ['\n']) = splitNL t ++ [[]] := by
  intro t
  induction t with
  | nil => rfl
  | cons c t2 ih =>
    by_cases hc : c = '\n'
    · subst hc
      rw [List.cons_append, splitNL_cons_nl, splitNL_cons_nl, ih, List.cons_append]
    · obtain ⟨h, t3, hv⟩ := exists_splitNL_cons t2
      have hst : splitNL (t2 ++ ['\n']) = h :: (t3 ++ [[]]) := by
        rw [ih, hv]
        rfl
      rw [List.cons_append, splitNL_cons_of_ne hc hst, splitNL_cons_of_ne hc hv,
        List.cons_append]

theorem modLast_cons (f : List Char → List Char) (x : List Char) {xs : List (List Char)}
    (h : xs ≠ []) : modLast f (x :: xs) = x :: modLast f xs := by
  obtain ⟨y, ys, rfl⟩ := List.exists_cons_of_ne_nil h
  rfl

theorem splitNL_append_char : ∀ (t : List Char) {c : Char}, c ≠ '\n' →
    splitNL (t ++ [c]) = modLast (fun l => l ++ [c]) (splitNL t) := by
  intro t
  induction t with
  | nil =>
    intro c hc
    have h0 : splitNL ([] : List Char) = [] :: [] := rfl
    rw [List.nil_append, splitNL_cons_of_ne hc h0]
    rfl
  | cons d t2 ih =>
    intro c hc
    by_cases hd : d = '\n'
    · subst hd
      rw [List.cons_append, splitNL_cons_nl, splitNL_cons_nl, ih hc,
        modLast_cons _ _ (splitNL_ne_nil t2)]
    · obtain ⟨h, t3, hv⟩ := exists_splitNL_cons t2
      cases t3 with
      | nil =>
        have hst : splitNL (t2 ++ [c]) = (h ++ [c]) :: [] := by
          rw [ih hc, hv]
          rfl
        rw [List.cons_append, splitNL_cons_of_ne hd hst, splitNL_cons_of_ne hd hv]
        rfl
      | cons z zs =>
        have hst : splitNL (t2 ++ [c]) = h :: modLast (fun l => l ++ [c]) (z :: zs) := by
          rw [ih hc, hv, modLast_cons _ _ (by simp)]
        have hr : modLast (fun l => l ++ [c]) ((d :: h) :: z :: zs) =
            (d :: h) :: modLast (fun l => l ++ [c]) (z :: zs) :=
          modLast_cons _ _ (by simp)
        rw [List.cons_append, splitNL_cons_of_ne hd hst, splitNL_cons_of_ne hd hv, hr]

theorem cleanVisible_modLast : ∀ (X : List (List Char)) {c : Char}, isWS c = true →
    ((modLast (fun l => l ++ [c]) X).filter (fun l => !(wsOnly l))).map cleanLine =
      (X.filter (fun l => !(wsOnly l))).map cleanLine := by
  intro X
  induction X with
  | nil => intro c hc; rfl
  | cons x xs ih =>
    intro c hc
    cases xs with
    | nil =>
      show (([x ++ [c]]).filter (fun l => !(wsOnly l))).map cleanLine =
        (([x]).filter (fun l => !(wsOnly l))).map cleanLine
      rw [List.filter_cons, List.filter_cons]
      have hwx : wsOnly (x ++ [c]) = wsOnly x := by
        simp [wsOnly_append, wsOnly_cons, wsOnly_nil, hc]
      by_cases hwsx : wsOnly x = true
      · rw [if_neg (by simp [hwx, hwsx]), if_neg (by simp [hwsx])]
      · have hwsx2 : wsOnly x = false := by simpa using hwsx
        rw [if_pos (by simp [hwx, hwsx2]), if_pos (by simp [hwsx2]),
          List.map_cons, List.map_cons, cleanLine_append_ws x hc]
    | cons y ys =>
      rw [modLast_cons _ _ (by simp), List.filter_cons, List.filter_cons]
      by_cases hwsx : wsOnly x = true
      · rw [if_neg (by simp [hwsx]), if_neg (by simp [hwsx]), ih hc]
      · have hwsx2 : wsOnly x = false := by simpa using hwsx
        rw [if_pos (by simp [hwsx2]), if_pos (by simp [hwsx2]),
          List.map_cons, List.map_cons, ih hc]

theorem cleanVisible_ws_append_char (x : List Char) {c : Char} (hc : isWS c = true) :
    cleanVisibleLines (x ++ [c]) = cleanVisibleLines x := by
  by_cases hcn : c = '\n'
  · subst hcn
    unfold cleanVisibleLines
    rw [splitNL_append_nl, List.filter_append,
      show (([[]] : List (List Char)).filter (fun l => !(wsOnly l))) = [] from rfl,
      List.append_nil]
  · unfold cleanVisibleLines
    rw [splitNL_append_char x hcn]
    exact cleanVisible_modLast (splitNL x) hc

theorem cleanVisible_ws_postpend : ∀ (w : List Char), wsOnly w = true →
    ∀ x, cleanVisibleLines (x ++ w) = cleanVisibleLines x := by
  intro w
  induction w with
  | nil => intro _ x; rw [List.append_nil]
  | cons b w2 ih =>
    intro hw x
    rw [wsOnly_cons, Bool.and_eq_true] at hw
    have hsp : x ++ b :: w2 = (x ++ [b]) ++ w2 := by
      rw [List.append_assoc, List.singleton_append]
    rw [hsp, ih hw.2 (x ++ [b]), cleanVisible_ws_append_char x hw.1]

/-- C3: the nonempty lines of `clean_response s` are exactly the
non-blank lines of `s`, in order, each sent through the per-line
cleaning step; on a line whose stripped form starts with a list
marker that step only strips leading and trailing whitespace
(preserving the interior verbatim), and on every other non-blank line
it strips the ends and collapses each interior whitespace run to a
single space. -/
theorem c3_line_treatment (s : List Char) :
    ((splitNL (clean_response s)).filter (fun l => !l.isEmpty)) =
      ((splitNL s).filter (fun l => !(wsOnly l))).map cleanLine ∧
    (∀ l : List Char, isListMarker (stripChars l) = true →
      cleanLine l = stripChars l ∧
      ∃ a b, wsOnly a = true ∧ wsOnly b = true ∧ l = a ++ stripChars l ++ b) ∧
    (∀ l : List Char, wsOnly l = false → isListMarker (stripChars l) = false →
      cleanLine l = collapseWS (stripChars l)) := by
  refine ⟨?_, ?_, ?_⟩
  · by_cases hns : stripChars s = []
    · have hws : wsOnly s = true := stripChars_eq_nil_iff.mp hns
      rw [clean_response_of_ws hns]
      have hall : (splitNL s).filter (fun l => !(wsOnly l)) = [] := by
        rw [List.filter_eq_nil_iff]
        intro l hl
        rw [wsOnly_lines hws l hl]
        simp
      rw [hall]
      rfl
    · obtain ⟨M, hjoin, hsplit, hMdef, hMnl, hMstr, hMchain, hMhead, hMlast⟩ :=
        clean_normal_form s hns
      rw [hsplit, hMdef, filter_map_cleanLine, filter_collapseLines]
      obtain ⟨w, w2, hw, hw2, hl⟩ := exists_strip_decomp s
      obtain ⟨m, hm⟩ : ∃ m, stripChars s = m := ⟨_, rfl⟩
      rw [hm] at hl
      rw [hm, hl]
      show cleanVisibleLines m = cleanVisibleLines (w ++ m ++ w2)
      rw [cleanVisible_ws_postpend w2 hw2 (w ++ m), cleanVisible_ws_prepend w hw m]
  · intro l hm
    refine ⟨?_, ?_⟩
    · unfold cleanLine
      rw [if_pos hm]
    · obtain ⟨a, b, ha, hb, hl⟩ := exists_strip_decomp l
      exact ⟨a, b, ha, hb, hl⟩
  · intro l hws hm
    unfold cleanLine
    rw [if_neg (by rw [hm]; exact Bool.false_ne_true)]
    exact strip_collapseWS_comm hws

theorem c3_line_treatment_witness :
    ((splitNL (clean_response ([' ', '1', '.', ' ', ' ', 'a', ' '] : List Char))).filter
        (fun l => !l.isEmpty)) =
      ((splitNL ([' ', '1', '.', ' ', ' ', 'a', ' '] : List Char)).filter
        (fun l => !(wsOnly l))).map cleanLine ∧
    cleanLine ([' ', '1', '.', ' ', ' ', 'a', ' '] : List Char) =
      stripChars ([' ', '1', '.', ' ', ' ', 'a', ' '] : List Char) ∧
    cleanLine (['b', ' ', ' ', 'c'] : List Char) =
      collapseWS (stripChars (['b', ' ', ' ', 'c'] : List Char)) :=
  ⟨(c3_line_treatment [' ', '1', '.', ' ', ' ', 'a', ' ']).1,
    ((c3_line_treatment [' ', '1', '.', ' ', ' ', 'a', ' ']).2.1 _ (by decide)).1,
    (c3_line_treatment []).2.2 ['b', ' ', ' ', 'c'] (by decide) (by decide)⟩

/-! ### C4: cost calculator -/

/-- C4: for every known model and all token counts, `calculate_cost`
returns `(prompt_tokens/1000)*input_price + (completion_tokens/1000)*output_price`;
with the grok-3-beta prices 0.005 and 0.015 and 1000 tokens of each kind
the result is 0.020; every unrecognized model string yields 0 regardless
of token counts (and the function is total, so it never raises). -/
theorem c4_calculate_cost :
    (∀ pt ct : ℕ, calculate_cost grok3Beta pt ct =
        ((pt : ℚ) / 1000) * GROK_3_BETA_INPUT_PRICE_PER_1K +
          ((ct : ℚ) / 1000) * GROK_3_BETA_OUTPUT_PRICE_PER_1K) ∧
    (∀ pt ct : ℕ, calculate_cost grok3MiniBeta pt ct =
        ((pt : ℚ) / 1000) * GROK_3_MINI_BETA_INPUT_PRICE_PER_1K +
          ((ct : ℚ) / 1000) * GROK_3_MINI_BETA_OUTPUT_PRICE_PER_1K) ∧
    calculate_cost grok3Beta 1000 1000 = 20 / 1000 ∧
    (∀ m : List Char, ∀ pt ct : ℕ, m ≠ grok3Beta → m ≠ grok3MiniBeta →
      calculate_cost m pt ct = 0) := by
  refine ⟨fun pt ct => by simp [calculate_cost], fun pt ct => ?_, ?_, ?_⟩
  · have h : grok3MiniBeta ≠ grok3Beta := by decide
    simp [calculate_cost, h]
  · norm_num [calculate_cost, GROK_3_BETA_INPUT_PRICE_PER_1K,
      GROK_3_BETA_OUTPUT_PRICE_PER_1K]
  · intro m pt ct h1 h2
    simp [calculate_cost, h1, h2]

/-- Witness for C4 at concrete inputs: an unknown model costs 0 and
grok-3-beta at 1000/1000 tokens costs 0.020. -/
theorem c4_calculate_cost_witness :
    calculate_cost ['z'] 3 4 = 0 ∧ calculate_cost grok3Beta 1000 1000 = 20 / 1000 :=
  ⟨c4_calculate_cost.2.2.2 ['z'] 3 4 (by decide) (by decide), c4_calculate_cost.2.2.1⟩

/-! ### C5, C6: non-streaming call -/

/-- C5: every failure outcome of `make_non_streaming_call` (user
interrupt, HTTP status error, network error, any other exception) returns
the triple `(None, None, None)` instead of propagating, and each failure
class prints its own distinct message. -/
theorem c5_failure_returns_none (st : ℕ) (tx m g : List Char) :
    make_non_streaming_call CallOutcome.keyboardInterrupt =
      ((none, none, none), [ConsoleMsg.interruptedNotice]) ∧
    make_non_streaming_call (CallOutcome.httpStatusError st tx) =
      ((none, none, none), [ConsoleMsg.httpErrorNotice st tx]) ∧
    make_non_streaming_call (CallOutcome.requestError m) =
      ((none, none, none), [ConsoleMsg.networkErrorNotice m]) ∧
    make_non_streaming_call (CallOutcome.otherError g) =
      ((none, none, none), [ConsoleMsg.genericErrorNotice g]) ∧
    List.Pairwise (fun a b => a ≠ b)
      [ConsoleMsg.interruptedNotice, ConsoleMsg.httpErrorNotice st tx,
        ConsoleMsg.networkErrorNotice m, ConsoleMsg.genericErrorNotice g] := by
  refine ⟨rfl, rfl, rfl, rfl, ?_⟩
  simp

/-- C6: a successful non-streaming call returns the first choice's
content and reasoning, each passed through `clean_response`, together
with the raw usage object from the envelope (`total_tokens` is passed
through unchanged, not recomputed). -/
theorem c6_success_cleaned (d : ResponseData) (ch : ChoiceMsg) (rest : List ChoiceMsg)
    (h : d.choices = ch :: rest) :
    make_non_streaming_call (CallOutcome.success d) =
      ((some (clean_response (ch.content.getD [])),
        some (clean_response (ch.reasoning_content.getD [])),
        some (d.usage.getD ⟨none, none, none⟩)), []) := by
  simp [make_non_streaming_call, h]

/-- Witness for C6: a concrete envelope whose reported `total_tokens`
(99) differs from `prompt_tokens + completion_tokens` (3 + 4) is passed
through verbatim. -/
theorem c6_success_cleaned_witness :
    (⟨some ⟨some 3, some 4, some 99⟩, [⟨some [], some []⟩]⟩ : ResponseData).choices =
      (⟨some [], some []⟩ : ChoiceMsg) :: [] ∧
    make_non_streaming_call
        (CallOutcome.success ⟨some ⟨some 3, some 4, some 99⟩, [⟨some [], some []⟩]⟩) =
      ((some [], some [], some ⟨some 3, some 4, some 99⟩), []) := by
  refine ⟨rfl, ?_⟩
  have h := c6_success_cleaned ⟨some ⟨some 3, some 4, some 99⟩, [⟨some [], some []⟩]⟩
    ⟨some [], some []⟩ [] rfl
  simpa [clean_response] using h

/-! ### C7: streaming call -/

/-- C7: a wire line prefixed with `"data: "` and distinct from the
sentinel `"data: [DONE]"` whose parsed frame carries a choice yields that
choice's delta content (one fragment per event, in arrival order); a line
without the prefix, or the sentinel line, yields nothing. -/
theorem c7_stream_yields (parse : List Char → StreamFrame) (chunk : List Char)
    (rest : List (List Char)) (ch : DeltaChoice) (chs : List DeltaChoice)
    (h1 : beginsWith dataMarker chunk = true) (h2 : chunk ≠ doneSentinel)
    (h3 : (parse (chunk.drop 6)).choices = ch :: chs) :
    make_streaming_call parse (chunk :: rest) =
      ch.delta_content.getD [] :: make_streaming_call parse rest ∧
    ∀ c2 : List Char, beginsWith dataMarker c2 = false ∨ c2 = doneSentinel →
      make_streaming_call parse (c2 :: rest) = make_streaming_call parse rest := by
  constructor
  · have h2b : (chunk == doneSentinel) = false := by
      simpa using h2
    simp [make_streaming_call, h1, h2b, h3]
  · intro c2 hc2
    rcases hc2 with hc2 | hc2
    · simp [make_streaming_call, hc2]
    · subst hc2
      simp [make_streaming_call]

/-- Witness for C7: a concrete data line yields its delta content. -/
theorem c7_stream_yields_witness :
    make_streaming_call (fun _ => ⟨[⟨some ['h', 'i']⟩]⟩) [dataMarker ++ ['z']] =
      [['h', 'i']] := by
  have h := (c7_stream_yields (fun _ => ⟨[⟨some ['h', 'i']⟩]⟩) (dataMarker ++ ['z']) []
    ⟨some ['h', 'i']⟩ [] (by decide) (by decide) rfl).1
  simpa [make_streaming_call] using h

/-! ### Render pipeline lemmas -/

theorem beginsWith_append (p t : List Char) : beginsWith p (p ++ t) = true := by
  induction p with
  | nil => rfl
  | cons c cs ih => simp [beginsWith, ih]

theorem eq_append_of_beginsWith {p l : List Char} (h : beginsWith p l = true) :
    l = p ++ l.drop p.length := by
  induction p generalizing l with
  | nil => simp
  | cons c cs ih =>
    cases l with
    | nil => simp [beginsWith] at h
    | cons d ds =>
      simp only [beginsWith, Bool.and_eq_true, beq_iff_eq] at h
      obtain ⟨rfl, h2⟩ := h
      simpa using ih h2

theorem length_le_of_beginsWith {p l : List Char} (h : beginsWith p l = true) :
    p.length ≤ l.length := by
  have := eq_append_of_beginsWith h
  calc p.length ≤ p.length + (l.drop p.length).length := Nat.le_add_right _ _
    _ = l.length := by rw [← List.length_append, ← this]

theorem beginsWith_append_right {p l : List Char} (m : List Char)
    (h : p.length ≤ l.length) : beginsWith p (l ++ m) = beginsWith p l := by
  induction p generalizing l with
  | nil => rfl
  | cons c cs ih =>
    cases l with
    | nil => simp at h
    | cons d ds =>
      simp only [List.cons_append, beginsWith, List.append_eq]
      rw [ih (by simpa using h)]

theorem findTriple_eq {l a b : List Char} (h : findTriple l = some (a, b)) :
    l = a ++ tq ++ b := by
  induction l generalizing a with
  | nil => simp [findTriple] at h
  | cons c rest ih =>
    by_cases hb : beginsWith tq (c :: rest) = true
    · rw [findTriple, if_pos hb] at h
      have he := eq_append_of_beginsWith hb
      obtain ⟨rfl, rfl⟩ := Prod.mk.injEq .. ▸ Option.some.injEq .. ▸ h
      simpa using he
    · rw [findTriple, if_neg hb] at h
      cases hft : findTriple rest with
      | none => rw [hft] at h; exact absurd h (by simp)
      | some ab =>
        obtain ⟨a', b'⟩ := ab
        rw [hft] at h
        obtain ⟨rfl, rfl⟩ := Prod.mk.injEq .. ▸ Option.some.injEq .. ▸ h
        have := ih hft
        simp [this]

theorem findFence_eq {s pre block post : List Char}
    (h : findFence s = some (pre, block, post)) :
    s = pre ++ block ++ post ∧ post.length + 6 ≤ s.length := by
  unfold findFence at h
  cases h1 : findTriple s with
  | none => rw [h1] at h; simp at h
  | some pr =>
    obtain ⟨p1, r1⟩ := pr
    rw [h1] at h
    dsimp only at h
    cases h2 : findTriple r1 with
    | none => rw [h2] at h; simp at h
    | some mp =>
      obtain ⟨mid, po⟩ := mp
      rw [h2] at h
      dsimp only at h
      have e1 := findTriple_eq h1
      have e2 := findTriple_eq h2
      obtain ⟨rfl, rfl, rfl⟩ : p1 = pre ∧ tq ++ mid ++ tq = block ∧ po = post := by
        simpa using h
      constructor
      · rw [e1, e2]; simp
      · rw [e1, e2]; simp [tq]; omega

theorem resplitF_fuel : ∀ n m : ℕ, ∀ s : List Char, s.length ≤ n → s.length ≤ m →
    resplitF n s = resplitF m s := by
  intro n
  induction n with
  | zero =>
    intro m s hn _
    have : s = [] := List.length_eq_zero.mp (Nat.le_zero.mp hn)
    subst this
    cases m with
    | zero => rfl
    | succ m' =>
      have : findFence [] = none := rfl
      simp [resplitF, this]
  | succ n' ih =>
    intro m s hn hm
    cases hf : findFence s with
    | none =>
      cases m with
      | zero => simp [resplitF, hf]
      | succ m' => simp [resplitF, hf]
    | some pbp =>
      obtain ⟨pre, block, post⟩ := pbp
      have hlt := (findFence_eq hf).2
      cases m with
      | zero =>
        exfalso
        have : s = [] := List.length_eq_zero.mp (Nat.le_zero.mp hm)
        subst this
        simp [findFence, findTriple] at hf
      | succ m' =>
        simp only [resplitF, hf]
        rw [ih m' post (by omega) (by omega)]

theorem resplit_of_findFence {s pre block post : List Char}
    (h : findFence s = some (pre, block, post)) :
    resplit s = pre :: block :: resplit post := by
  have hlt := (findFence_eq h).2
  unfold resplit
  cases hn : s.length with
  | zero =>
    exfalso
    have : s = [] := List.length_eq_zero.mp (by omega)
    subst this
    simp [findFence, findTriple] at h
  | succ n' =>
    simp only [resplitF, h]
    rw [resplitF_fuel n' post.length post (by omega) (le_refl _)]

theorem resplit_none {s : List Char} (h : findFence s = none) : resplit s = [s] := by
  unfold resplit
  cases s.length with
  | zero => rfl
  | succ n' => simp [resplitF, h]

/-- The parts produced by the fence split concatenate, in order, to the
original input: nothing is lost, duplicated, or reordered. -/
theorem cat_resplit : ∀ s : List Char, catLists (resplit s) = s := by
  have main : ∀ n : ℕ, ∀ s : List Char, s.length ≤ n → catLists (resplit s) = s := by
    intro n
    induction n with
    | zero =>
      intro s hs
      have : s = [] := List.length_eq_zero.mp (Nat.le_zero.mp hs)
      subst this
      rfl
    | succ n' ih =>
      intro s hs
      cases hf : findFence s with
      | none => simp [resplit_none hf, catLists]
      | some pbp =>
        obtain ⟨pre, block, post⟩ := pbp
        obtain ⟨he, hlt⟩ := findFence_eq hf
        rw [resplit_of_findFence hf]
        simp only [catLists]
        rw [ih post (by omega)]
        simp [he]
  exact fun s => main s.length s (le_refl _)

theorem findTriple_of_beginsWith {s : List Char} (h : beginsWith tq s = true) :
    findTriple s = some ([], s.drop 3) := by
  cases s with
  | nil => simp [tq, beginsWith] at h
  | cons c rest => simp [findTriple, h]

theorem endsWith_append (t : List Char) : endsWith tq (t ++ tq) = true := by
  unfold endsWith
  rw [List.reverse_append]
  have htq : tq.reverse = tq := rfl
  rw [htq]
  exact beginsWith_append tq t.reverse

theorem exists_of_endsWith {s : List Char} (h : endsWith tq s = true) :
    ∃ t, s = t ++ tq := by
  unfold endsWith at h
  have htq : tq.reverse = tq := rfl
  rw [htq] at h
  have := eq_append_of_beginsWith h
  refine ⟨(s.reverse.drop tq.length).reverse, ?_⟩
  calc s = s.reverse.reverse := by simp
    _ = (tq ++ s.reverse.drop tq.length).reverse := by rw [← this]
    _ = (s.reverse.drop tq.length).reverse ++ tq := by
        rw [List.reverse_append, htq]

theorem findTriple_isSome_of_endsWith :
    ∀ r : List Char, 3 ≤ r.length → endsWith tq r = true → findTriple r ≠ none := by
  intro r
  induction r with
  | nil => intro h3; simp at h3
  | cons c rest ih =>
    intro h3 hend
    by_cases hb : beginsWith tq (c :: rest) = true
    · rw [findTriple_of_beginsWith hb]; simp
    · obtain ⟨t, ht⟩ := exists_of_endsWith hend
      have htne : t ≠ [] := by
        rintro rfl
        apply hb
        have hct : c :: rest = tq := by simpa using ht
        rw [hct]
        simpa using beginsWith_append tq []
      obtain ⟨d, t', rfl⟩ := List.exists_cons_of_ne_nil htne
      have hcd : c = d ∧ rest = t' ++ tq := by
        have := ht
        simp only [List.cons_append] at this
        exact ⟨List.head_eq_of_cons_eq this, List.tail_eq_of_cons_eq this⟩
      obtain ⟨rfl, rfl⟩ := hcd
      have hlen : 3 ≤ (t' ++ tq).length := by simp [tq]
      have := ih hlen (endsWith_append t')
      rw [findTriple]
      rw [if_neg hb]
      cases hft : findTriple (t' ++ tq) with
      | none => exact absurd hft this
      | some ab => obtain ⟨a, b⟩ := ab; simp

/-! ### C8: render pipeline example and ordering -/

/-- C8: the input `"before\n```python\nprint(1)\n```\nafter"` renders as
exactly three segments in document order - prose `"before"`, a code
segment with language `"python"` and body `"print(1)"`, prose `"after"` -
and for every input the parts of the fence split concatenate back to the
input in original order (no reordering, nothing dropped). -/
theorem c8_render_pipeline :
    renderSegs (("before\n```python\nprint(1)\n```\nafter").toList) =
      [Seg.prose (("before").toList),
        Seg.code (("python").toList) (("print(1)").toList),
        Seg.prose (("after").toList)] ∧
    ∀ s : List Char, catLists (resplit s) = s :=
  ⟨by decide, cat_resplit⟩

/-! ### C10: unmatched fences -/

/-- C10 counterexample: the input `"````"` (four backticks) contains an
opening fence marker and no matching closing fence, it is nonblank after
cleaning, yet the pipeline renders *nothing* for it - in particular it is
not treated as a prose segment, contradicting the claim. -/
theorem c10_counterexample_backtick_run :
    beginsWith tq (("````").toList) = true ∧
    findFence (("````").toList) = none ∧
    stripChars (clean_response (("````").toList)) ≠ [] ∧
    renderSegs (("````").toList) = [] := by decide

/-- C10 (amended): when the input contains no complete fenced block, no
code segment is ever produced; the whole input is treated as one part,
which is rendered as cleaned prose unless it both starts and ends with
the triple-backtick marker (a bare backtick run of length 3 to 5), in
which case the code branch is taken with an empty body and renders
nothing. -/
theorem c10_unclosed_fence_prose (s : List Char) (hno : findFence s = none) :
    (∀ lang body : List Char, Seg.code lang body ∈ renderSegs s → False) ∧
    ((beginsWith tq s && endsWith tq s) = true → renderSegs s = []) ∧
    ((beginsWith tq s && endsWith tq s) = false →
      renderSegs s =
        if stripChars (clean_response s) = [] then []
        else [Seg.prose (clean_response s)]) := by
  have hparts : renderSegs s = renderPart s := by
    unfold renderSegs
    rw [resplit_none hno]
    simp [catLists]
  have hcode : (beginsWith tq s && endsWith tq s) = true → renderSegs s = [] := by
    intro hcond
    have hbw : beginsWith tq s = true := by
      rcases Bool.and_eq_true .. |>.mp hcond with ⟨h1, _⟩
      exact h1
    have hew : endsWith tq s = true := by
      rcases Bool.and_eq_true .. |>.mp hcond with ⟨_, h2⟩
      exact h2
    have hft : findTriple s = some ([], s.drop 3) := findTriple_of_beginsWith hbw
    have hft2 : findTriple (s.drop 3) = none := by
      cases hft2 : findTriple (s.drop 3) with
      | none => rfl
      | some ab =>
        exfalso
        obtain ⟨a, b⟩ := ab
        have : findFence s = some ([], tq ++ a ++ tq, b) := by
          unfold findFence
          rw [hft]
          dsimp only
          rw [hft2]
        rw [hno] at this
        exact absurd this (by simp)
    have hlen : (s.drop 3).length ≤ 2 := by
      by_contra hgt
      push_neg at hgt
      have h3 : 3 ≤ (s.drop 3).length := hgt
      obtain ⟨t, rfl⟩ := exists_of_endsWith hew
      have htlen : 3 ≤ t.length := by
        have := List.length_drop 3 (t ++ tq)
        simp [tq] at this h3 ⊢
        omega
      have hdrop : (t ++ tq).drop 3 = t.drop 3 ++ tq :=
        List.drop_append_of_le_length htlen
      rw [hdrop] at h3 hft2
      exact findTriple_isSome_of_endsWith _ h3 (endsWith_append _) hft2
    have hdl : dropLast3 (s.drop 3) = [] := by
      unfold dropLast3
      have : (s.drop 3).length - 3 = 0 := by omega
      rw [this]
      simp
    rw [hparts]
    unfold renderPart
    rw [if_pos hcond, hdl]
    simp [stripChars, dropTrailWS, splitNL, joinNL]
  refine ⟨?_, hcode, ?_⟩
  · intro lang body hmem
    by_cases hcond : (beginsWith tq s && endsWith tq s) = true
    · rw [hcode hcond] at hmem
      simp at hmem
    · rw [hparts] at hmem
      unfold renderPart at hmem
      rw [if_neg hcond] at hmem
      by_cases hp : stripChars (clean_response s) ≠ []
      · rw [if_pos hp] at hmem
        simp at hmem
      · rw [if_neg hp] at hmem
        simp at hmem
  · intro hcond
    rw [hparts]
    unfold renderPart
    rw [if_neg (by rw [hcond]; simp)]
    by_cases hp : stripChars (clean_response s) = []
    · rw [if_neg (by simp [hp])]
      simp [hp]
    · rw [if_pos hp]
      simp [hp]

/-- Witness for the amended C10 at the concrete input `"x```y"`: one
unmatched opening fence, rendered as a single prose segment. -/
theorem c10_unclosed_fence_prose_witness :
    findFence (("x```y").toList) = none ∧
    (beginsWith tq (("x```y").toList) && endsWith tq (("x```y").toList)) = false ∧
    renderSegs (("x```y").toList) =
      (if stripChars (clean_response (("x```y").toList)) = [] then []
        else [Seg.prose (clean_response (("x```y").toList))]) :=
  ⟨by decide, by decide,
    (c10_unclosed_fence_prose (("x```y").toList) (by decide)).2.2 (by decide)⟩

/-! ### C9: interactive loop, exit -/

/-- C9: an input line whose stripped form is `"exit"` in any letter case
moves the loop to the terminal state without dispatching any API call. -/
theorem c9_exit_no_dispatch (stream : Bool) (model rawLine : List Char)
    (h : lowerStr (stripChars rawLine) = exitWord) :
    promptGrokStep stream model rawLine = (LoopState.exited, []) := by
  simp [promptGrokStep, h]

/-- Witness for C9 at the concrete input `"  ExIt "`. -/
theorem c9_exit_no_dispatch_witness :
    lowerStr (stripChars ([' ', ' ', 'E', 'x', 'I', 't', ' '])) = exitWord ∧
    promptGrokStep true ['m'] ([' ', ' ', 'E', 'x', 'I', 't', ' ']) =
      (LoopState.exited, []) :=
  ⟨by decide, c9_exit_no_dispatch true ['m'] _ (by decide)⟩

end GrokCli
